import Mathlib

/-!
# Verification of the day14-doc-assistant core (chunker, retrieval, memory, streaming)

This file gives a shallow embedding, in Lean 4, of the core of the
`day14-doc-assistant` repository:

* `src/lib/chunker.ts` — the hierarchical parent/child chunker
  (`splitRecursive`, `mergeChunks`, `splitAndMerge`, `parentChildChunk`);
* `src/app/api/chat/route.ts` — the chat route (`reformulateQuery`,
  `summarizeOverflow`, the memory-management section of `POST`, result
  deduplication/context assembly, and the stream trailer encoding);
* `src/components/ChatView.tsx` — the stream consumer's sentinel
  extractor (`extractSentinels`).

JavaScript strings are modelled as `List Char` (`Str`).  External network
collaborators (the OpenAI completion calls, the embedding gateway and the
vector index) are modelled as oracle functions returning `Except`, so a
thrown exception is an `Except.error` and a successful response is
`Except.ok`; the route's `try`/`catch` becomes pattern matching on the
resulting `Except`.
-/

namespace DocAssist

/-- JavaScript strings, modelled as lists of characters. -/
abbrev Str := List Char

/-- The JavaScript whitespace class (the `\s` regex class and the character
set removed by `String.prototype.trim`): space, tab, line feed, vertical tab,
form feed, carriage return, NBSP, the Unicode space separators, the line and
paragraph separators, narrow no-break space, medium mathematical space,
ideographic space, and the BOM. -/
def isWs (c : Char) : Bool :=
  c == ' ' || c == '\t' || c == '\n' || c == '\x0b' || c == '\x0c' || c == '\r' ||
  c == '\u00a0' || c == '\u1680' ||
  (0x2000 ≤ c.toNat && c.toNat ≤ 0x200a) ||
  c == '\u2028' || c == '\u2029' || c == '\u202f' || c == '\u205f' ||
  c == '\u3000' || c == '\ufeff'

/-- The JavaScript regex line terminators, which the `.` atom does NOT match:
line feed, carriage return, line separator, paragraph separator. -/
def isLineTerm (c : Char) : Bool :=
  c == '\n' || c == '\r' || c == '\u2028' || c == '\u2029'

/-- `String.prototype.trim`: strip leading and trailing whitespace. -/
def trim (s : Str) : Str :=
  ((s.dropWhile isWs).reverse.dropWhile isWs).reverse

/-! ## The hierarchical chunker (`src/lib/chunker.ts`) -/

/-- `const SEPARATORS = ["\n\n", "\n", ". ", " ", ""]` (chunker.ts line 14). -/
def SEPARATORS : List Str :=
  [['\n', '\n'], ['\n'], ['.', ' '], [' '], []]

/-- Helper for `String.prototype.split`: find the first occurrence of
(non-empty) `sep` in `l`, returning the part before it and the part after
it, or `none` if `sep` does not occur. -/
def breakOn (sep : Str) : Str → Option (Str × Str)
  | [] => none
  | c :: cs =>
    if sep.isPrefixOf (c :: cs) then some ([], (c :: cs).drop sep.length)
    else
      match breakOn sep cs with
      | some (pre, post) => some (c :: pre, post)
      | none => none

theorem breakOn_eq (sep : Str) :
    ∀ l pre post, breakOn sep l = some (pre, post) → l = pre ++ sep ++ post := by
  intro l
  induction l with
  | nil => intro pre post h; simp [breakOn] at h
  | cons c cs ih =>
    intro pre post h
    by_cases hp : sep.isPrefixOf (c :: cs)
    · rw [breakOn, if_pos hp] at h
      simp only [Option.some.injEq, Prod.mk.injEq] at h
      obtain ⟨hpre, hpost⟩ := h
      have hps : sep <+: (c :: cs) := List.isPrefixOf_iff_prefix.mp hp
      have htake := List.prefix_iff_eq_take.mp hps
      subst hpre hpost
      simp only [List.nil_append]
      conv_lhs => rw [← List.take_append_drop sep.length (c :: cs)]
      rw [← htake]
    · rw [breakOn, if_neg hp] at h
      cases hb : breakOn sep cs with
      | none => rw [hb] at h; exact absurd h (by simp)
      | some pp =>
        obtain ⟨pre', post'⟩ := pp
        rw [hb] at h
        simp only [Option.some.injEq, Prod.mk.injEq] at h
        obtain ⟨hpre, hpost⟩ := h
        have := ih pre' post' hb
        subst hpre hpost
        simp [this]

theorem breakOn_infix (sep : Str) (l pre post : Str)
    (h : breakOn sep l = some (pre, post)) : sep <:+: l := by
  have := breakOn_eq sep l pre post h
  exact ⟨pre, post, this.symm⟩

/-- Structural worker for `splitSep`: the fuel dominates the text length, so
the zero-fuel branch is never reached on the fuel `splitSep` supplies. -/
def splitSepFuel (sep : Str) : Nat → Str → List Str
  | 0, l => [l]
  | fuel + 1, l =>
    match breakOn sep l with
    | none => [l]
    | some (pre, post) => pre :: splitSepFuel sep fuel post

/-- `String.prototype.split` by a separator (`text.split(sep)`).
`splitSep sep l` with `sep = []` is never used by the chunker
(`splitRecursive` special-cases `sep === ""` before splitting). -/
def splitSep (sep : Str) (l : Str) : List Str :=
  if sep = [] then [l] else splitSepFuel sep l.length l

theorem splitSepFuel_congr (sep : Str) (hsep : sep ≠ []) :
    ∀ (fuel fuel' : Nat) (l : Str), l.length ≤ fuel → l.length ≤ fuel' →
      splitSepFuel sep fuel l = splitSepFuel sep fuel' l := by
  intro fuel
  induction fuel with
  | zero =>
    intro fuel' l hf hf'
    have hl : l = [] := List.length_eq_zero.mp (Nat.le_zero.mp hf)
    subst hl
    cases fuel' with
    | zero => rfl
    | succ f' => simp [splitSepFuel, breakOn]
  | succ f ih =>
    intro fuel' l hf hf'
    cases fuel' with
    | zero =>
      have hl : l = [] := List.length_eq_zero.mp (Nat.le_zero.mp hf')
      subst hl
      simp [splitSepFuel, breakOn]
    | succ f' =>
      rw [splitSepFuel, splitSepFuel]
      cases hb : breakOn sep l with
      | none => rfl
      | some pp =>
        obtain ⟨pre, post⟩ := pp
        have heq := breakOn_eq sep l pre post hb
        have hlen : 0 < sep.length := List.length_pos.mpr hsep
        have hpost : post.length < l.length := by simp [heq]; omega
        show pre :: splitSepFuel sep f post = pre :: splitSepFuel sep f' post
        rw [ih f' post (by omega) (by omega)]

/-- The defining recursion of `splitSep`, as in the source. -/
theorem splitSep_eq (sep : Str) (hsep : sep ≠ []) (l : Str) :
    splitSep sep l =
      match breakOn sep l with
      | none => [l]
      | some (pre, post) => pre :: splitSep sep post := by
  show (if sep = [] then [l] else splitSepFuel sep l.length l) = _
  rw [if_neg hsep]
  cases hl : l.length with
  | zero =>
    have : l = [] := List.length_eq_zero.mp hl
    subst this
    simp [splitSepFuel, breakOn]
  | succ m =>
    rw [splitSepFuel]
    cases hb : breakOn sep l with
    | none => rfl
    | some pp =>
      obtain ⟨pre, post⟩ := pp
      have heq := breakOn_eq sep l pre post hb
      have hlen : 0 < sep.length := List.length_pos.mpr hsep
      have hpost : post.length < l.length := by simp [heq]; omega
      show pre :: splitSepFuel sep m post = pre :: splitSep sep post
      rw [show splitSep sep post = splitSepFuel sep post.length post from by
            show (if sep = [] then [post] else _) = _
            rw [if_neg hsep],
        splitSepFuel_congr sep hsep m post.length post (by omega) (le_refl _)]

/-- `Array.prototype.join(sep)`. -/
def joinSep (sep : Str) : List Str → Str
  | [] => []
  | [x] => x
  | x :: y :: xs => x ++ sep ++ joinSep sep (y :: xs)

theorem splitSep_ne_nil (sep l : Str) : splitSep sep l ≠ [] := by
  by_cases hsep : sep = []
  · show (if sep = [] then [l] else splitSepFuel sep l.length l) ≠ []
    rw [if_pos hsep]; simp
  · rw [splitSep_eq sep hsep]
    cases breakOn sep l with
    | none => simp
    | some pp => obtain ⟨pre, post⟩ := pp; simp

theorem joinSep_splitSep (sep : Str) (l : Str) : joinSep sep (splitSep sep l) = l := by
  by_cases hsep : sep = []
  · show joinSep sep (if sep = [] then [l] else splitSepFuel sep l.length l) = l
    rw [if_pos hsep]; simp [joinSep]
  · rw [splitSep_eq sep hsep]
    cases hb : breakOn sep l with
    | none => simp [joinSep]
    | some pp =>
      obtain ⟨pre, post⟩ := pp
      have heq := breakOn_eq sep l pre post hb
      have hlen : 0 < sep.length := List.length_pos.mpr hsep
      have hlt : post.length < l.length := by simp [heq]; omega
      have ihp := joinSep_splitSep sep post
      show joinSep sep (pre :: splitSep sep post) = l
      cases hs : splitSep sep post with
      | nil => exact absurd hs (splitSep_ne_nil sep post)
      | cons a as =>
        rw [hs] at ihp
        simp only [joinSep]
        rw [ihp, heq]
termination_by l.length

theorem splitSep_not_infix (sep l : Str) (hsep : sep ≠ []) (h : ¬ sep <:+: l) :
    splitSep sep l = [l] := by
  rw [splitSep_eq sep hsep]
  cases hb : breakOn sep l with
  | none => rfl
  | some pp =>
    exact absurd ( breakOn_infix sep l pp.1 pp.2 (by rw [hb])) h

theorem splitSep_mem_infix (sep : Str) (l : Str) :
    ∀ p, p ∈ splitSep sep l → p <:+: l := by
  intro p hp
  by_cases hsep : sep = []
  · rw [show splitSep sep l = if sep = [] then [l] else splitSepFuel sep l.length l from rfl,
      if_pos hsep] at hp
    simp at hp; subst hp; exact List.infix_refl _
  · rw [splitSep_eq sep hsep] at hp
    cases hb : breakOn sep l with
    | none =>
      rw [hb] at hp
      simp at hp; subst hp; exact List.infix_refl _
    | some pp =>
      obtain ⟨pre, post⟩ := pp
      rw [hb] at hp
      have heq := breakOn_eq sep l pre post hb
      have hlen : 0 < sep.length := List.length_pos.mpr hsep
      have hlt : post.length < l.length := by simp [heq]; omega
      rcases List.mem_cons.mp hp with rfl | hmem
      · exact ⟨[], sep ++ post, by simp [heq]⟩
      · have := splitSep_mem_infix sep post p hmem
        exact this.trans ⟨pre ++ sep, [], by simp [heq]⟩
termination_by l.length

/-- Fixed-width fallback slicing (chunker.ts lines 80–83):
`for (let i = 0; i < text.length; i += chunkSize) parts.push(text.slice(i, i + chunkSize))`.
With `chunkSize = 0` the source loop diverges; it is modelled as `[]` here and
every theorem about it assumes `0 < chunkSize`. -/
def chunksOfFuel (chunkSize : Nat) : Nat → Str → List Str
  | 0, _ => []
  | fuel + 1, t =>
    if t = [] then []
    else if chunkSize = 0 then []
    else t.take chunkSize :: chunksOfFuel chunkSize fuel (t.drop chunkSize)

def chunksOf (chunkSize : Nat) (t : Str) : List Str :=
  chunksOfFuel chunkSize t.length t

theorem chunksOfFuel_congr (chunkSize : Nat) (hsz : chunkSize ≠ 0) :
    ∀ (fuel fuel' : Nat) (t : Str), t.length ≤ fuel → t.length ≤ fuel' →
      chunksOfFuel chunkSize fuel t = chunksOfFuel chunkSize fuel' t := by
  intro fuel
  induction fuel with
  | zero =>
    intro fuel' t hf hf'
    have ht : t = [] := List.length_eq_zero.mp (Nat.le_zero.mp hf)
    subst ht
    cases fuel' <;> simp [chunksOfFuel]
  | succ f ih =>
    intro fuel' t hf hf'
    cases fuel' with
    | zero =>
      have ht : t = [] := List.length_eq_zero.mp (Nat.le_zero.mp hf')
      subst ht
      simp [chunksOfFuel]
    | succ f' =>
      rw [chunksOfFuel, chunksOfFuel]
      by_cases ht : t = []
      · simp [ht]
      · rw [if_neg ht, if_neg ht, if_neg hsz, if_neg hsz]
        have hpos : 0 < t.length := List.length_pos.mpr ht
        have hszpos : 0 < chunkSize := Nat.pos_of_ne_zero hsz
        have : (t.drop chunkSize).length < t.length := by simp; omega
        rw [ih f' (t.drop chunkSize) (by omega) (by omega)]

/-- The defining recursion of `chunksOf`, as in the source. -/
theorem chunksOf_eq (chunkSize : Nat) (t : Str) :
    chunksOf chunkSize t =
      if t = [] then []
      else if chunkSize = 0 then []
      else t.take chunkSize :: chunksOf chunkSize (t.drop chunkSize) := by
  by_cases ht : t = []
  · subst ht; simp [chunksOf, chunksOfFuel]
  · by_cases hsz : chunkSize = 0
    · rw [if_neg ht, if_pos hsz]
      unfold chunksOf
      cases hl : t.length with
      | zero => exact absurd (List.length_eq_zero.mp hl) ht
      | succ m => rw [chunksOfFuel, if_neg ht, if_pos hsz]
    · rw [if_neg ht, if_neg hsz]
      unfold chunksOf
      cases hl : t.length with
      | zero => exact absurd (List.length_eq_zero.mp hl) ht
      | succ m =>
        rw [chunksOfFuel, if_neg ht, if_neg hsz]
        have hpos : 0 < t.length := List.length_pos.mpr ht
        have hszpos : 0 < chunkSize := Nat.pos_of_ne_zero hsz
        have hlt : (t.drop chunkSize).length < t.length := by simp; omega
        rw [chunksOfFuel_congr chunkSize hsz m (t.drop chunkSize).length (t.drop chunkSize)
          (by omega) (le_refl _)]

theorem join_chunksOf (chunkSize : Nat) (hsz : 0 < chunkSize) (t : Str) :
    (chunksOf chunkSize t).flatten = t := by
  rw [chunksOf_eq]
  split
  · rename_i ht; simp [ht]
  · rename_i ht
    rw [if_neg (Nat.pos_iff_ne_zero.mp hsz)]
    have hpos : 0 < t.length := List.length_pos.mpr ht
    have hlt : (t.drop chunkSize).length < t.length := by simp; omega
    have := join_chunksOf chunkSize hsz (t.drop chunkSize)
    simp [this]
termination_by t.length

theorem chunksOf_length_le (chunkSize : Nat) (t : Str) :
    ∀ p, p ∈ chunksOf chunkSize t → p.length ≤ chunkSize := by
  intro p hp
  rw [chunksOf_eq] at hp
  split at hp
  · simp at hp
  · split at hp
    · simp at hp
    · rename_i ht hsz
      have hpos : 0 < t.length := List.length_pos.mpr ht
      have hszpos : 0 < chunkSize := Nat.pos_iff_ne_zero.mpr hsz
      have hlt : (t.drop chunkSize).length < t.length := by simp; omega
      rcases List.mem_cons.mp hp with rfl | hmem
      · simpa using List.length_take_le chunkSize t
      · exact chunksOf_length_le chunkSize (t.drop chunkSize) p hmem
termination_by t.length

/-- The greedy packing loop of `splitRecursive` (chunker.ts lines 89–107),
with `recur` standing for the recursive call on oversized pieces.
The accumulator `current` starts as `""`; JS string truthiness
(`current ? current + sep + piece : piece`, `if (current) results.push(current)`)
becomes emptiness tests. -/
def packPieces (sep : Str) (chunkSize : Nat) (recur : Str → List Str) :
    List Str → Str → List Str
  | [], current => if current = [] then [] else [current]
  | piece :: ps, current =>
    let candidate := if current = [] then piece else current ++ sep ++ piece
    if candidate.length ≤ chunkSize then packPieces sep chunkSize recur ps candidate
    else
      (if current = [] then [] else [current]) ++
        (if chunkSize < piece.length then recur piece ++ packPieces sep chunkSize recur ps []
         else packPieces sep chunkSize recur ps piece)

/-- `splitRecursive` (chunker.ts lines 78–108). -/
def splitRecursive (separators : List Str) (chunkSize : Nat) (text : Str) : List Str :=
  if text.length ≤ chunkSize then [text]
  else
    match separators with
    | [] => chunksOf chunkSize text
    | sep :: rest =>
      let splits := if sep = [] then [text] else splitSep sep text
      packPieces sep chunkSize (fun p => splitRecursive rest chunkSize p) splits []

/-- A text no longer than the chunk size is returned whole, whatever the
separator list. -/
theorem splitRecursive_base (seps : List Str) (chunkSize : Nat) (t : Str)
    (h : t.length ≤ chunkSize) : splitRecursive seps chunkSize t = [t] := by
  cases seps with
  | nil => rw [splitRecursive, if_pos h]
  | cons a rest => rw [splitRecursive, if_pos h]

/-- The merge loop of `mergeChunks` (chunker.ts lines 112–123), with the
outer iteration inlined: `chunk` is the current accumulator (already
trimmed/space-joined), the list argument holds the pieces not yet consumed. -/
def mergeAux (chunkSize : Nat) (chunk : Str) : List Str → List Str
  | [] => if chunk = [] then [] else [chunk]
  | next :: rest =>
    if chunk.length + next.length + 1 ≤ chunkSize then
      mergeAux chunkSize (chunk ++ ' ' :: trim next) rest
    else
      (if chunk = [] then [] else [chunk]) ++ mergeAux chunkSize (trim next) rest

/-- The merge loop applied to a fresh list (chunker.ts lines 112–123). -/
def mergeRaw (chunkSize : Nat) : List Str → List Str
  | [] => []
  | s :: rest => mergeAux chunkSize (trim s) rest

/-- The overlap-injection tail (chunker.ts lines 127–130): each chunk after
the first is prefixed with the trailing `overlap` characters of the PREVIOUS
pre-overlap chunk plus a space (`result[j-1].slice(-overlap) + " " + result[j]`). -/
def overlapTail (overlap : Nat) (prev : Str) : List Str → List Str
  | [] => []
  | r :: rs => (prev.drop (prev.length - overlap) ++ ' ' :: r) :: overlapTail overlap r rs

/-- Overlap injection (chunker.ts lines 125–133), including its guard
`overlap > 0 && result.length > 1`. -/
def injectOverlap (overlap : Nat) : List Str → List Str
  | [] => []
  | r :: rs =>
    if 0 < overlap ∧ rs ≠ [] then r :: overlapTail overlap r rs else r :: rs

/-- `mergeChunks` (chunker.ts lines 110–134). -/
def mergeChunks (splits : List Str) (chunkSize overlap : Nat) : List Str :=
  if splits.length ≤ 1 then (splits.map trim).filter (fun s => !s.isEmpty)
  else injectOverlap overlap (mergeRaw chunkSize splits)

/-- `splitAndMerge` (chunker.ts lines 73–76). -/
def splitAndMerge (text : Str) (chunkSize overlap : Nat) : List Str :=
  mergeChunks (splitRecursive SEPARATORS chunkSize text) chunkSize overlap

/-- `ParentChunk` (chunker.ts lines 1–5). -/
structure ParentChunk where
  id : Str
  text : Str
  index : Nat
deriving DecidableEq, Repr

/-- `ChildChunk` (chunker.ts lines 7–12). -/
structure ChildChunk where
  text : Str
  index : Nat
  parentId : Str
  childIndex : Nat
deriving DecidableEq, Repr

/-- Decimal rendering of a natural number, as produced by JS template
interpolation `${i}`. -/
def natDecimalFuel : Nat → Nat → Str
  | 0, n => [Nat.digitChar n]
  | fuel + 1, n =>
    if n < 10 then [Nat.digitChar n]
    else natDecimalFuel fuel (n / 10) ++ [Nat.digitChar (n % 10)]

def natDecimal (n : Nat) : Str := natDecimalFuel n n

theorem natDecimalFuel_congr :
    ∀ (fuel fuel' n : Nat), n ≤ fuel → n ≤ fuel' →
      natDecimalFuel fuel n = natDecimalFuel fuel' n := by
  intro fuel
  induction fuel with
  | zero =>
    intro fuel' n hf hf'
    have hn : n = 0 := Nat.le_zero.mp hf
    subst hn
    cases fuel' <;> simp [natDecimalFuel]
  | succ f ih =>
    intro fuel' n hf hf'
    cases fuel' with
    | zero =>
      have hn : n = 0 := Nat.le_zero.mp hf'
      subst hn
      simp [natDecimalFuel]
    | succ f' =>
      rw [natDecimalFuel, natDecimalFuel]
      by_cases hn : n < 10
      · simp [hn]
      · rw [if_neg hn, if_neg hn]
        have h10 : 10 ≤ n := Nat.le_of_not_lt hn
        have : n / 10 < n := Nat.div_lt_self (by omega) (by omega)
        rw [ih f' (n / 10) (by omega) (by omega)]

/-- The defining recursion of `natDecimal`. -/
theorem natDecimal_eq (n : Nat) :
    natDecimal n =
      if n < 10 then [Nat.digitChar n]
      else natDecimal (n / 10) ++ [Nat.digitChar (n % 10)] := by
  by_cases hn : n < 10
  · rw [if_pos hn]
    unfold natDecimal
    cases n with
    | zero => simp [natDecimalFuel]
    | succ m => rw [natDecimalFuel, if_pos hn]
  · rw [if_neg hn]
    have h10 : 10 ≤ n := Nat.le_of_not_lt hn
    obtain ⟨m, rfl⟩ : ∃ m, n = m + 1 := ⟨n - 1, by omega⟩
    unfold natDecimal
    rw [natDecimalFuel, if_neg hn]
    have hdiv : (m + 1) / 10 ≤ m := by omega
    rw [natDecimalFuel_congr m ((m + 1) / 10) ((m + 1) / 10) hdiv (le_refl _)]

/-- Parent ids: `` `p-${i}` `` (chunker.ts line 33). -/
def mkParentId (i : Nat) : Str := 'p' :: '-' :: natDecimal i

/-- `parentTexts.map((t, i) => ({ id: ..., text: t, index: i }))`
(chunker.ts lines 32–36), with the running index made explicit. -/
def mkParents : Nat → List Str → List ParentChunk
  | _, [] => []
  | i, t :: ts => ⟨mkParentId i, t, i⟩ :: mkParents (i + 1) ts

/-- One parent's block of children (chunker.ts lines 42–49): `g` is the
running global index (`children.length`), `ci` the index local to the parent. -/
def mkChildBlock (pid : Str) : Nat → Nat → List Str → List ChildChunk
  | _, _, [] => []
  | g, ci, t :: ts => ⟨t, g, pid, ci⟩ :: mkChildBlock pid (g + 1) (ci + 1) ts

/-- The child-generation loop over all parents (chunker.ts lines 39–50). -/
def mkChildren (childSize childOverlap : Nat) : List ParentChunk → Nat → List ChildChunk
  | [], _ => []
  | p :: ps, g =>
    let ts := splitAndMerge p.text childSize childOverlap
    mkChildBlock p.id g 0 ts ++ mkChildren childSize childOverlap ps (g + ts.length)

/-- `parentChildChunk` (chunker.ts lines 23–53). -/
def parentChildChunk (text : Str) (parentSize : Nat := 2000) (parentOverlap : Nat := 200)
    (childSize : Nat := 400) (childOverlap : Nat := 50) :
    List ParentChunk × List ChildChunk :=
  let parents := mkParents 0 (splitAndMerge text parentSize parentOverlap)
  (parents, mkChildren childSize childOverlap parents 0)

/-! ## Chunker lemmas: character preservation, size bounds, non-emptiness -/

theorem filter_dropWhile_isWs (keep : Char → Bool)
    (hws : ∀ c, isWs c = true → keep c = false) (s : Str) :
    (s.dropWhile isWs).filter keep = s.filter keep := by
  induction s with
  | nil => rfl
  | cons c cs ih =>
    by_cases hc : isWs c
    · rw [List.dropWhile_cons_of_pos hc, ih, List.filter_cons_of_neg (by simp [hws c hc])]
    · rw [List.dropWhile_cons_of_neg (by simpa using hc)]

theorem filter_trim (keep : Char → Bool)
    (hws : ∀ c, isWs c = true → keep c = false) (s : Str) :
    (trim s).filter keep = s.filter keep := by
  unfold trim
  rw [List.filter_reverse, filter_dropWhile_isWs keep hws, List.filter_reverse,
    List.reverse_reverse, filter_dropWhile_isWs keep hws]

theorem trim_length_le (s : Str) : (trim s).length ≤ s.length := by
  unfold trim
  have h1 := (show List.Sublist (s.dropWhile isWs) s
      from List.dropWhile_sublist isWs).length_le
  have h2 := (show List.Sublist ((s.dropWhile isWs).reverse.dropWhile isWs)
      ((s.dropWhile isWs).reverse) from List.dropWhile_sublist isWs).length_le
  simp only [List.length_reverse] at *
  omega

theorem trim_eq_nil_of_all_ws (s : Str) (h : s.all isWs) : trim s = [] := by
  unfold trim
  have : s.dropWhile isWs = [] := List.dropWhile_eq_nil_iff.mpr (by
    intro x hx; exact List.all_eq_true.mp h x hx)
  simp [this]

theorem joinSep_filter (keep : Char → Bool) (sep : Str)
    (hsep : sep.filter keep = []) :
    ∀ L : List Str, (joinSep sep L).filter keep = L.flatten.filter keep := by
  intro L
  match L with
  | [] => rfl
  | [x] => simp [joinSep]
  | x :: y :: xs =>
    have ih := joinSep_filter keep sep hsep (y :: xs)
    simp only [joinSep, List.filter_append, hsep, List.flatten_cons] at *
    simp [ih]

/-- The packing loop preserves the `keep`-filtered character stream, provided
no separator character is kept and the recursive splitter preserves it on
every oversized piece. -/
theorem packPieces_filter (keep : Char → Bool) (sep : Str) (chunkSize : Nat)
    (recur : Str → List Str) (hsep : sep.filter keep = []) :
    ∀ (ps : List Str) (cur : Str),
      (∀ p ∈ ps, ((recur p).flatten).filter keep = p.filter keep) →
      ((packPieces sep chunkSize recur ps cur).flatten).filter keep =
        cur.filter keep ++ (ps.flatten).filter keep := by
  intro ps
  induction ps with
  | nil =>
    intro cur _
    by_cases hcur : cur = [] <;> simp [packPieces, hcur]
  | cons p ps ih =>
    intro cur hrec
    have hrecp : ((recur p).flatten).filter keep = p.filter keep :=
      hrec p (List.mem_cons_self p ps)
    have hrecs : ∀ q ∈ ps, ((recur q).flatten).filter keep = q.filter keep :=
      fun q hq => hrec q (List.mem_cons_of_mem p hq)
    have ih' : ∀ c : Str, ((packPieces sep chunkSize recur ps c).flatten).filter keep =
        c.filter keep ++ (ps.flatten).filter keep := fun c => ih c hrecs
    show ((packPieces sep chunkSize recur (p :: ps) cur).flatten).filter keep = _
    rw [packPieces]
    clear hrec ih
    split_ifs with h1 h2 h3 h4 h5 <;>
      simp_all only [List.flatten_cons, List.flatten_append, List.flatten_nil,
        List.filter_append, List.filter_nil, List.nil_append, List.append_nil,
        ih', hrecp, hsep, List.append_assoc]

/-- An oversized single piece is handed entirely to the recursive splitter. -/
theorem packPieces_single_big (sep : Str) (chunkSize : Nat) (recur : Str → List Str)
    (t : Str) (h : chunkSize < t.length) :
    packPieces sep chunkSize recur [t] [] = recur t := by
  have h' : ¬ t.length ≤ chunkSize := Nat.not_le.mpr h
  simp [packPieces, h', h]

/-- `splitRecursive` preserves the `keep`-filtered character stream, provided
every separator in play either consists only of unkept characters, or is the
sentence separator `". "` and does not occur in the text. -/
theorem splitRecursive_filter (keep : Char → Bool) (chunkSize : Nat) (hsz : 0 < chunkSize) :
    ∀ (seps : List Str) (t : Str),
      (∀ s ∈ seps, s.filter keep = [] ∨ (s = ['.', ' '] ∧ ¬ s <:+: t)) →
      ((splitRecursive seps chunkSize t).flatten).filter keep = t.filter keep := by
  intro seps
  induction seps with
  | nil =>
    intro t _
    rw [splitRecursive]
    split
    · simp
    · rw [join_chunksOf chunkSize hsz t]
  | cons sep rest ih =>
    intro t hseps
    rw [splitRecursive]
    split
    · simp
    · rename_i hbig
      have hbig' : chunkSize < t.length := Nat.lt_of_not_le hbig
      have hrest : ∀ (u : Str), u <:+: t →
          ∀ s ∈ rest, s.filter keep = [] ∨ (s = ['.', ' '] ∧ ¬ s <:+: u) := by
        intro u hu s hs
        rcases hseps s (List.mem_cons_of_mem sep hs) with h | ⟨rfl, hni⟩
        · exact Or.inl h
        · exact Or.inr ⟨rfl, fun hinf => hni (hinf.trans hu)⟩
      rcases hseps sep (List.mem_cons_self sep rest) with hsepk | ⟨rfl, hnotinf⟩
      · by_cases hsnil : sep = []
        · rw [if_pos hsnil, packPieces_single_big sep chunkSize _ t hbig']
          exact ih t (hrest t (List.infix_refl t))
        · rw [if_neg hsnil]
          have hrec : ∀ p ∈ splitSep sep t,
              ((splitRecursive rest chunkSize p).flatten).filter keep = p.filter keep := by
            intro p hp
            exact ih p (hrest p ( splitSep_mem_infix sep t p hp))
          rw [packPieces_filter keep sep chunkSize _ hsepk (splitSep sep t) [] hrec]
          have h1 := joinSep_filter keep sep hsepk (splitSep sep t)
          rw [joinSep_splitSep sep t] at h1
          simp [← h1]
      · have hsnil : (['.', ' '] : Str) ≠ [] := by simp
        rw [if_neg hsnil, splitSep_not_infix _ t hsnil hnotinf,
          packPieces_single_big _ chunkSize _ t hbig']
        exact ih t (hrest t (List.infix_refl t))

/-- The merge loop preserves the `keep`-filtered character stream (it only
trims whitespace and joins with spaces). -/
theorem mergeAux_filter (keep : Char → Bool)
    (hws : ∀ c, isWs c = true → keep c = false) (chunkSize : Nat) :
    ∀ (ps : List Str) (chunk : Str),
      ((mergeAux chunkSize chunk ps).flatten).filter keep =
        chunk.filter keep ++ (ps.flatten).filter keep := by
  have hspace : keep ' ' = false := hws ' ' (by decide)
  intro ps
  induction ps with
  | nil =>
    intro chunk
    by_cases hc : chunk = [] <;> simp [mergeAux, hc]
  | cons next rest ih =>
    intro chunk
    rw [mergeAux]
    split_ifs with h1 h2 <;>
      simp_all [List.filter_append, filter_trim keep hws, List.filter_cons, hspace,
        List.append_assoc]

theorem mergeRaw_filter (keep : Char → Bool)
    (hws : ∀ c, isWs c = true → keep c = false) (chunkSize : Nat) (ps : List Str) :
    ((mergeRaw chunkSize ps).flatten).filter keep = (ps.flatten).filter keep := by
  cases ps with
  | nil => rfl
  | cons s rest =>
    rw [mergeRaw, mergeAux_filter keep hws chunkSize rest (trim s)]
    simp [filter_trim keep hws]

theorem dropEmptyTrim_filter (keep : Char → Bool)
    (hws : ∀ c, isWs c = true → keep c = false) (L : List Str) :
    (((L.map trim).filter (fun s => !s.isEmpty)).flatten).filter keep =
      (L.flatten).filter keep := by
  induction L with
  | nil => rfl
  | cons t ts ih =>
    by_cases ht : (trim t).isEmpty
    · have htriv : t.filter keep = [] := by
        rw [← filter_trim keep hws, List.isEmpty_iff.mp ht]; rfl
      simp [List.filter_cons, ht, ih, List.filter_append, htriv]
    · have htr : (trim t).filter keep = t.filter keep := filter_trim keep hws t
      simp [List.filter_cons, ht, ih, List.filter_append, htr]

/-- The pre-overlap chunk list: `mergeChunks` before overlap injection
(chunker.ts lines 110–123); `splitAndMerge` is exactly this list with
the overlap prefixes injected (`splitAndMerge_eq_injectOverlap`). -/
def splitAndMergeRaw (text : Str) (chunkSize : Nat) : List Str :=
  if (splitRecursive SEPARATORS chunkSize text).length ≤ 1 then
    ((splitRecursive SEPARATORS chunkSize text).map trim).filter (fun s => !s.isEmpty)
  else mergeRaw chunkSize (splitRecursive SEPARATORS chunkSize text)

theorem injectOverlap_short (overlap : Nat) (L : List Str) (h : L.length ≤ 1) :
    injectOverlap overlap L = L := by
  match L with
  | [] => rfl
  | [x] => simp [injectOverlap]
  | x :: y :: xs => simp at h

theorem splitAndMerge_eq_injectOverlap (text : Str) (chunkSize overlap : Nat) :
    splitAndMerge text chunkSize overlap =
      injectOverlap overlap (splitAndMergeRaw text chunkSize) := by
  unfold splitAndMerge mergeChunks splitAndMergeRaw
  by_cases h : (splitRecursive SEPARATORS chunkSize text).length ≤ 1
  · rw [if_pos h, if_pos h, injectOverlap_short]
    calc (((splitRecursive SEPARATORS chunkSize text).map trim).filter
            (fun s => !s.isEmpty)).length
        ≤ ((splitRecursive SEPARATORS chunkSize text).map trim).length :=
          List.length_filter_le _ _
      _ ≤ 1 := by simpa using h
  · rw [if_neg h, if_neg h]

/-- Character preservation for the pre-overlap parent list. -/
theorem splitAndMergeRaw_filter (keep : Char → Bool)
    (hws : ∀ c, isWs c = true → keep c = false) (chunkSize : Nat) (hsz : 0 < chunkSize)
    (text : Str)
    (hsep : keep '.' = false ∨ ¬ (['.', ' '] : Str) <:+: text) :
    ((splitAndMergeRaw text chunkSize).flatten).filter keep = text.filter keep := by
  have hnl : keep '\n' = false := hws '\n' (by decide)
  have hsp : keep ' ' = false := hws ' ' (by decide)
  have hseps : ∀ s ∈ SEPARATORS, s.filter keep = [] ∨ (s = ['.', ' '] ∧ ¬ s <:+: text) := by
    intro s hs
    simp only [SEPARATORS, List.mem_cons, List.not_mem_nil, or_false] at hs
    rcases hs with rfl | rfl | rfl | rfl | rfl
    · exact Or.inl (by simp [List.filter_cons, hnl])
    · exact Or.inl (by simp [List.filter_cons, hnl])
    · rcases hsep with hdot | hni
      · exact Or.inl (by simp [List.filter_cons, hdot, hsp])
      · exact Or.inr ⟨rfl, hni⟩
    · exact Or.inl (by simp [List.filter_cons, hsp])
    · exact Or.inl rfl
  have hsr := splitRecursive_filter keep chunkSize hsz SEPARATORS text hseps
  unfold splitAndMergeRaw
  split
  · rw [dropEmptyTrim_filter keep hws, hsr]
  · rw [mergeRaw_filter keep hws, hsr]

/-! ## Chunker lemmas: size bounds -/

theorem packPieces_length_le (sep : Str) (chunkSize : Nat) (recur : Str → List Str) :
    ∀ (ps : List Str) (cur : Str), cur.length ≤ chunkSize →
      (∀ p ∈ ps, chunkSize < p.length → ∀ q ∈ recur p, q.length ≤ chunkSize) →
      ∀ q ∈ packPieces sep chunkSize recur ps cur, q.length ≤ chunkSize := by
  intro ps
  induction ps with
  | nil =>
    intro cur hcur _ q hq
    rw [packPieces] at hq
    split at hq
    · simp at hq
    · simp at hq; subst hq; exact hcur
  | cons p ps ih =>
    intro cur hcur hrec q hq
    have hrecp := hrec p (List.mem_cons_self p ps)
    have hrecs : ∀ r ∈ ps, chunkSize < r.length → ∀ q ∈ recur r, q.length ≤ chunkSize :=
      fun r hr => hrec r (List.mem_cons_of_mem p hr)
    rw [packPieces] at hq
    split_ifs at hq with h1 h2 h3 h4 h5
    · exact ih p (by simpa using h2) hrecs q hq
    · simp only [h1, if_pos, List.nil_append, List.mem_append] at hq
      rcases hq with hq | hq
      · exact hrecp h3 q hq
      · exact ih [] (by simp) hrecs q hq
    · simp only [h1, if_pos, List.nil_append] at hq
      exact ih p (Nat.le_of_not_lt h3) hrecs q hq
    · exact ih (cur ++ sep ++ p) (by simpa using h4) hrecs q hq
    · simp only [List.cons_append, List.nil_append, List.mem_cons, List.mem_append] at hq
      rcases hq with rfl | hq | hq
      · exact hcur
      · exact hrecp h5 q hq
      · exact ih [] (by simp) hrecs q hq
    · simp only [List.cons_append, List.nil_append, List.mem_cons] at hq
      rcases hq with rfl | hq
      · exact hcur
      · exact ih p (Nat.le_of_not_lt h5) hrecs q hq

theorem splitRecursive_length_le (chunkSize : Nat) :
    ∀ (seps : List Str) (t : Str) (q : Str), q ∈ splitRecursive seps chunkSize t →
      q.length ≤ chunkSize := by
  intro seps
  induction seps with
  | nil =>
    intro t q hq
    rw [splitRecursive] at hq
    split at hq
    · rename_i h; simp at hq; subst hq; exact h
    · exact chunksOf_length_le chunkSize t q hq
  | cons sep rest ih =>
    intro t q hq
    rw [splitRecursive] at hq
    split at hq
    · rename_i h; simp at hq; subst hq; exact h
    · exact packPieces_length_le sep chunkSize _ _ [] (by simp)
        (fun p _ _ r hr => ih p r hr) q hq

theorem mergeAux_length_le (chunkSize : Nat) :
    ∀ (ps : List Str) (chunk : Str), chunk.length ≤ chunkSize →
      (∀ p ∈ ps, p.length ≤ chunkSize) →
      ∀ q ∈ mergeAux chunkSize chunk ps, q.length ≤ chunkSize := by
  intro ps
  induction ps with
  | nil =>
    intro chunk hchunk _ q hq
    rw [mergeAux] at hq
    split at hq
    · simp at hq
    · simp at hq; subst hq; exact hchunk
  | cons next rest ih =>
    intro chunk hchunk hps q hq
    have hnext : next.length ≤ chunkSize := hps next (List.mem_cons_self next rest)
    have hrest : ∀ p ∈ rest, p.length ≤ chunkSize :=
      fun p hp => hps p (List.mem_cons_of_mem next hp)
    rw [mergeAux] at hq
    have htn : (trim next).length ≤ chunkSize := le_trans (trim_length_le next) hnext
    split_ifs at hq with h1 h2
    · refine ih (chunk ++ ' ' :: trim next) ?_ hrest q hq
      have := trim_length_le next
      simp only [List.length_append, List.length_cons]
      omega
    · exact ih (trim next) htn hrest q (by simpa using hq)
    · simp only [List.cons_append, List.nil_append, List.mem_cons] at hq
      rcases hq with rfl | hq
      · exact hchunk
      · exact ih (trim next) htn hrest q hq

theorem mergeRaw_length_le (chunkSize : Nat) (ps : List Str)
    (hps : ∀ p ∈ ps, p.length ≤ chunkSize) :
    ∀ q ∈ mergeRaw chunkSize ps, q.length ≤ chunkSize := by
  cases ps with
  | nil => intro q hq; simp [mergeRaw] at hq
  | cons sHead rest =>
    intro q hq
    exact mergeAux_length_le chunkSize rest (trim sHead)
      (le_trans (trim_length_le sHead) (hps sHead (List.mem_cons_self sHead rest)))
      (fun p hp => hps p (List.mem_cons_of_mem sHead hp)) q hq

theorem overlapTail_length_le (overlap chunkSize : Nat) :
    ∀ (L : List Str) (prev : Str), (∀ p ∈ L, p.length ≤ chunkSize) →
      ∀ q ∈ overlapTail overlap prev L, q.length ≤ chunkSize + overlap + 1 := by
  intro L
  induction L with
  | nil => intro prev _ q hq; simp [overlapTail] at hq
  | cons r rs ih =>
    intro prev hL q hq
    rw [overlapTail] at hq
    rcases List.mem_cons.mp hq with rfl | hq
    · have h1 : (prev.drop (prev.length - overlap)).length ≤ overlap := by
        simp only [List.length_drop]; omega
      have h2 : r.length ≤ chunkSize := hL r (List.mem_cons_self r rs)
      simp only [List.length_append, List.length_cons]
      omega
    · exact ih r (fun p hp => hL p (List.mem_cons_of_mem r hp)) q hq

theorem injectOverlap_length_le (overlap chunkSize : Nat) (L : List Str)
    (hL : ∀ p ∈ L, p.length ≤ chunkSize) :
    ∀ q ∈ injectOverlap overlap L, q.length ≤ chunkSize + overlap + 1 := by
  intro q hq
  cases L with
  | nil => simp [injectOverlap] at hq
  | cons r rs =>
    rw [injectOverlap] at hq
    have hr : r.length ≤ chunkSize := hL r (List.mem_cons_self r rs)
    have hrs : ∀ p ∈ rs, p.length ≤ chunkSize :=
      fun p hp => hL p (List.mem_cons_of_mem r hp)
    split_ifs at hq
    · rcases List.mem_cons.mp hq with rfl | hq
      · omega
      · exact overlapTail_length_le overlap chunkSize rs r hrs q hq
    · rcases List.mem_cons.mp hq with rfl | hq
      · omega
      · have := hrs q hq; omega

/-- Every chunk produced by `splitAndMerge` has length at most
`chunkSize + overlap + 1` (the `+ 1` is the space injected between the
overlap tail and the chunk). -/
theorem splitAndMerge_length_le (text : Str) (chunkSize overlap : Nat) :
    ∀ q ∈ splitAndMerge text chunkSize overlap, q.length ≤ chunkSize + overlap + 1 := by
  intro q hq
  have hsr := splitRecursive_length_le chunkSize SEPARATORS text
  rw [splitAndMerge, mergeChunks] at hq
  split at hq
  · rcases List.mem_filter.mp hq with ⟨hmem, _⟩
    rcases List.mem_map.mp hmem with ⟨r, hr, rfl⟩
    have := le_trans (trim_length_le r) (hsr r hr)
    omega
  · exact injectOverlap_length_le overlap chunkSize _
      (mergeRaw_length_le chunkSize _ (fun p hp => hsr p hp)) q hq

/-! ## Chunker lemmas: produced chunks are never the empty string -/

theorem mergeAux_ne_nil (chunkSize : Nat) :
    ∀ (ps : List Str) (chunk : Str), ∀ q ∈ mergeAux chunkSize chunk ps, q ≠ [] := by
  intro ps
  induction ps with
  | nil =>
    intro chunk q hq
    rw [mergeAux] at hq
    split at hq
    · simp at hq
    · rename_i h; simp at hq; subst hq; exact h
  | cons next rest ih =>
    intro chunk q hq
    rw [mergeAux] at hq
    split_ifs at hq with h1 h2
    · exact ih _ q hq
    · exact ih _ q (by simpa using hq)
    · simp only [List.cons_append, List.nil_append, List.mem_cons] at hq
      rcases hq with rfl | hq
      · exact h2
      · exact ih _ q hq

theorem overlapTail_ne_nil (overlap : Nat) :
    ∀ (L : List Str) (prev : Str), ∀ q ∈ overlapTail overlap prev L, q ≠ [] := by
  intro L
  induction L with
  | nil => intro prev q hq; simp [overlapTail] at hq
  | cons r rs ih =>
    intro prev q hq
    rw [overlapTail] at hq
    rcases List.mem_cons.mp hq with rfl | hq
    · simp
    · exact ih r q hq

theorem injectOverlap_ne_nil (overlap : Nat) (L : List Str)
    (hL : ∀ p ∈ L, p ≠ []) : ∀ q ∈ injectOverlap overlap L, q ≠ [] := by
  intro q hq
  cases L with
  | nil => simp [injectOverlap] at hq
  | cons r rs =>
    rw [injectOverlap] at hq
    split_ifs at hq
    · rcases List.mem_cons.mp hq with rfl | hq
      · exact hL q (List.mem_cons_self q rs)
      · exact overlapTail_ne_nil overlap rs r q hq
    · exact hL q hq

/-- No produced chunk is the empty string. -/
theorem splitAndMerge_ne_nil (text : Str) (chunkSize overlap : Nat) :
    ∀ q ∈ splitAndMerge text chunkSize overlap, q ≠ [] := by
  intro q hq
  rw [splitAndMerge, mergeChunks] at hq
  split at hq
  · rcases List.mem_filter.mp hq with ⟨_, hne⟩
    simpa using hne
  · refine injectOverlap_ne_nil overlap _ ?_ q hq
    intro p hp
    cases hsp : splitRecursive SEPARATORS chunkSize text with
    | nil => rw [hsp] at hp; simp [mergeRaw] at hp
    | cons sHead rest =>
      rw [hsp] at hp
      exact mergeAux_ne_nil chunkSize rest (trim sHead) p hp

theorem injectOverlap_eq_nil_iff (overlap : Nat) (L : List Str) :
    injectOverlap overlap L = [] ↔ L = [] := by
  cases L with
  | nil => simp [injectOverlap]
  | cons r rs =>
    rw [injectOverlap]
    split_ifs <;> simp

/-! ## Parent ids and parent/child linkage -/

/-- Value of a decimal digit string (used only to prove `natDecimal` injective). -/
def digitsVal (s : Str) : Nat := s.foldl (fun a c => a * 10 + (c.toNat - 48)) 0

theorem digitChar_toNat (m : Nat) (h : m < 10) : (Nat.digitChar m).toNat = 48 + m := by
  have : ∀ k, k < 10 → (Nat.digitChar k).toNat = 48 + k := by decide
  exact this m h

theorem digitsVal_append_digit (xs : Str) (c : Char) :
    digitsVal (xs ++ [c]) = digitsVal xs * 10 + (c.toNat - 48) := by
  simp [digitsVal]

theorem digitsVal_natDecimal (n : Nat) : digitsVal (natDecimal n) = n := by
  rw [natDecimal_eq]
  split
  · rename_i h
    simp [digitsVal, digitChar_toNat n h]
  · rename_i h
    rw [digitsVal_append_digit, digitsVal_natDecimal (n / 10),
      digitChar_toNat (n % 10) (Nat.mod_lt n (by omega))]
    omega
termination_by n
decreasing_by
  rename_i h
  have : 10 ≤ n := Nat.le_of_not_lt h
  omega

theorem natDecimal_inj {a b : Nat} (h : natDecimal a = natDecimal b) : a = b := by
  have := congrArg digitsVal h
  rwa [digitsVal_natDecimal, digitsVal_natDecimal] at this

theorem mkParentId_inj {a b : Nat} (h : mkParentId a = mkParentId b) : a = b := by
  unfold mkParentId at h
  simp only [List.cons.injEq, true_and] at h
  exact natDecimal_inj h

theorem mkParents_map_text (ts : List Str) : ∀ i, (mkParents i ts).map (·.text) = ts := by
  induction ts with
  | nil => intro i; rfl
  | cons t ts ih => intro i; simp [mkParents, ih]

theorem mkParents_mem (ts : List Str) :
    ∀ i p, p ∈ mkParents i ts →
      (∃ k, i ≤ k ∧ k < i + ts.length ∧ p.id = mkParentId k) ∧ p.text ∈ ts := by
  induction ts with
  | nil => intro i p hp; simp [mkParents] at hp
  | cons t ts ih =>
    intro i p hp
    rw [mkParents] at hp
    rcases List.mem_cons.mp hp with rfl | hp
    · exact ⟨⟨i, le_refl i, by simp, rfl⟩, by simp⟩
    · obtain ⟨⟨k, hik, hk, hid⟩, htext⟩ := ih (i + 1) p hp
      exact ⟨⟨k, by omega, by simp; omega, hid⟩, List.mem_cons_of_mem t htext⟩

theorem mkParents_filter_id_lt (ts : List Str) :
    ∀ i k, k < i →
      (mkParents i ts).filter (fun p => p.id = mkParentId k) = [] := by
  induction ts with
  | nil => intro i k _; rfl
  | cons t ts ih =>
    intro i k hk
    rw [mkParents, List.filter_cons]
    have hne : ¬ (mkParentId i = mkParentId k) := fun h => by
      have := mkParentId_inj h; omega
    simp only [decide_eq_true_eq, hne, if_false]
    exact ih (i + 1) k (by omega)

theorem mkParents_filter_id_one (ts : List Str) :
    ∀ i k, i ≤ k → k < i + ts.length →
      ((mkParents i ts).filter (fun p => p.id = mkParentId k)).length = 1 := by
  induction ts with
  | nil => intro i k h1 h2; simp at h2; omega
  | cons t ts ih =>
    intro i k h1 h2
    rw [mkParents, List.filter_cons]
    by_cases hik : k = i
    · subst hik
      simp only [decide_eq_true_eq, if_pos rfl, List.length_cons]
      rw [mkParents_filter_id_lt ts (k + 1) k (by omega)]
      rfl
    · have hne : ¬ (mkParentId i = mkParentId k) := fun h => by
        have := mkParentId_inj h; omega
      simp only [decide_eq_true_eq, hne, if_false]
      exact ih (i + 1) k (by omega) (by simp at h2; omega)

theorem mkChildBlock_mem (pid : Str) :
    ∀ (ts : List Str) (g ci : Nat) (c : ChildChunk), c ∈ mkChildBlock pid g ci ts →
      c.parentId = pid ∧ c.text ∈ ts := by
  intro ts
  induction ts with
  | nil => intro g ci c hc; simp [mkChildBlock] at hc
  | cons t ts ih =>
    intro g ci c hc
    rw [mkChildBlock] at hc
    rcases List.mem_cons.mp hc with rfl | hc
    · exact ⟨rfl, by simp⟩
    · obtain ⟨hpid, htext⟩ := ih (g + 1) (ci + 1) c hc
      exact ⟨hpid, List.mem_cons_of_mem t htext⟩

theorem mkChildren_mem (childSize childOverlap : Nat) :
    ∀ (ps : List ParentChunk) (g : Nat) (c : ChildChunk),
      c ∈ mkChildren childSize childOverlap ps g →
      ∃ p ∈ ps, c.parentId = p.id ∧ c.text ∈ splitAndMerge p.text childSize childOverlap := by
  intro ps
  induction ps with
  | nil => intro g c hc; simp [mkChildren] at hc
  | cons p ps ih =>
    intro g c hc
    rw [mkChildren] at hc
    rcases List.mem_append.mp hc with hc | hc
    · obtain ⟨hpid, htext⟩ := mkChildBlock_mem p.id _ g 0 c hc
      exact ⟨p, List.mem_cons_self p ps, hpid, htext⟩
    · obtain ⟨q, hq, hpid, htext⟩ := ih _ c hc
      exact ⟨q, List.mem_cons_of_mem p hq, hpid, htext⟩

theorem mkChildren_exists_child (childSize childOverlap : Nat) :
    ∀ (ps : List ParentChunk) (g : Nat) (p : ParentChunk), p ∈ ps →
      splitAndMerge p.text childSize childOverlap ≠ [] →
      ∃ c ∈ mkChildren childSize childOverlap ps g, c.parentId = p.id := by
  intro ps
  induction ps with
  | nil => intro g p hp; simp at hp
  | cons q ps ih =>
    intro g p hp hne
    rcases List.mem_cons.mp hp with rfl | hp
    · cases hts : splitAndMerge p.text childSize childOverlap with
      | nil => exact absurd hts hne
      | cons t ts =>
        refine ⟨⟨t, g, p.id, 0⟩, ?_, rfl⟩
        rw [mkChildren, hts, mkChildBlock]
        simp
    · obtain ⟨c, hc, hcp⟩ := ih _ p hp hne
      refine ⟨c, ?_, hcp⟩
      rw [mkChildren]
      exact List.mem_append_right _ hc

/-! ## Claim theorems for the chunker -/

/-- C3, counterexample: on input `"ab. cd"` with parent size 5 and overlap 0
(so there are no injected overlap prefixes at all), the single parent chunk is
`"ab cd"` — the `'.'` of the `". "` separator is dropped at a split boundary,
so the non-whitespace character stream is NOT preserved, refuting the claim
as stated. -/
theorem chunk_coverage_cex :
    ((((parentChildChunk ('a' :: 'b' :: '.' :: ' ' :: 'c' :: 'd' :: []) 5 0 400 50).1.map
        (fun p => p.text)).flatten).filter (fun c => !isWs c))
      ≠ (('a' :: 'b' :: '.' :: ' ' :: 'c' :: 'd' :: []) : Str).filter (fun c => !isWs c) := by
  decide

/-- C3, amended: for inputs containing no occurrence of the sentence
separator `". "` (the only separator with a non-whitespace character, whose
`'.'` can be dropped at split boundaries), the parent chunks are exactly the
pre-overlap chunk list with overlap prefixes injected, and concatenating the
pre-overlap chunks (i.e. the parents with each injected overlap prefix
removed) reproduces the input up to whitespace: the non-whitespace character
stream is preserved exactly. -/
theorem chunk_coverage (text : Str) (parentSize parentOverlap childSize childOverlap : Nat)
    (hsz : 0 < parentSize) (hnops : ¬ (['.', ' '] : Str) <:+: text) :
    (parentChildChunk text parentSize parentOverlap childSize childOverlap).1.map
        (fun p => p.text)
      = injectOverlap parentOverlap (splitAndMergeRaw text parentSize)
    ∧ ((splitAndMergeRaw text parentSize).flatten).filter (fun c => !isWs c)
      = text.filter (fun c => !isWs c) := by
  constructor
  · show (mkParents 0 (splitAndMerge text parentSize parentOverlap)).map (fun p => p.text) = _
    rw [mkParents_map_text, splitAndMerge_eq_injectOverlap]
  · exact splitAndMergeRaw_filter (fun c => !isWs c)
      (fun c hc => by simp [hc]) parentSize hsz text (Or.inr hnops)

theorem chunk_coverage_witness :
    (0 < 4 ∧ ¬ (['.', ' '] : Str) <:+: ('h' :: 'e' :: 'l' :: 'l' :: 'o' :: ' ' :: 'w' :: 'o' :: 'r' :: 'l' :: 'd' :: []))
    ∧ ((parentChildChunk ('h' :: 'e' :: 'l' :: 'l' :: 'o' :: ' ' :: 'w' :: 'o' :: 'r' :: 'l' :: 'd' :: []) 4 1 400 50).1.map
          (fun p => p.text)
        = injectOverlap 1 (splitAndMergeRaw ('h' :: 'e' :: 'l' :: 'l' :: 'o' :: ' ' :: 'w' :: 'o' :: 'r' :: 'l' :: 'd' :: []) 4)
      ∧ ((splitAndMergeRaw ('h' :: 'e' :: 'l' :: 'l' :: 'o' :: ' ' :: 'w' :: 'o' :: 'r' :: 'l' :: 'd' :: []) 4).flatten).filter
            (fun c => !isWs c)
        = (('h' :: 'e' :: 'l' :: 'l' :: 'o' :: ' ' :: 'w' :: 'o' :: 'r' :: 'l' :: 'd' :: []) : Str).filter (fun c => !isWs c)) :=
  ⟨⟨by decide, by decide⟩,
    chunk_coverage _ 4 1 400 50 (by decide) (by decide)⟩

/-- C4, counterexample: on the separator-free input `"aaaa"` with chunk size 2
and overlap 1, the produced parent chunks are `"aa"` and `"a aa"` — lengths
`[2, 4]` — and `4` exceeds `targetSize + overlap = 3`: the injected joining
space makes the bound `size + overlap` off by one. -/
theorem chunk_size_bound_cex :
    ((parentChildChunk ('a' :: 'a' :: 'a' :: 'a' :: []) 2 1 400 50).1.map
      (fun p => p.text.length)) = [2, 4] := by
  decide

/-- C4, amended: every produced chunk (parent or child) has length at most
its target size plus one overlap length PLUS ONE (the space joined between
the injected overlap tail and the chunk), for positive target sizes (the
source's fixed-width fallback diverges at size 0). -/
theorem chunk_size_bound (text : Str) (parentSize parentOverlap childSize childOverlap : Nat)
    (hp : 0 < parentSize) (hc : 0 < childSize) :
    (∀ p ∈ (parentChildChunk text parentSize parentOverlap childSize childOverlap).1,
        p.text.length ≤ parentSize + parentOverlap + 1)
    ∧ (∀ c ∈ (parentChildChunk text parentSize parentOverlap childSize childOverlap).2,
        c.text.length ≤ childSize + childOverlap + 1) := by
  constructor
  · intro p hp'
    obtain ⟨_, htext⟩ := mkParents_mem _ 0 p hp'
    exact splitAndMerge_length_le text parentSize parentOverlap p.text htext
  · intro c hc'
    obtain ⟨p, _, _, htext⟩ := mkChildren_mem childSize childOverlap _ 0 c hc'
    exact splitAndMerge_length_le p.text childSize childOverlap c.text htext

theorem chunk_size_bound_witness :
    (0 < 2 ∧ 0 < 400)
    ∧ ((∀ p ∈ (parentChildChunk ('a' :: 'a' :: 'a' :: 'a' :: []) 2 1 400 50).1,
          p.text.length ≤ 2 + 1 + 1)
      ∧ (∀ c ∈ (parentChildChunk ('a' :: 'a' :: 'a' :: 'a' :: []) 2 1 400 50).2,
          c.text.length ≤ 400 + 50 + 1)) :=
  ⟨⟨by decide, by decide⟩, chunk_size_bound _ 2 1 400 50 (by decide) (by decide)⟩

/-- C8, counterexample: on the all-whitespace input `" \n "` with parent size
2, the merge loop joins two whitespace pieces with an injected space and
produces the single parent `" "` — a non-empty parent text — while the child
pass trims it away and produces NO children, refuting "every parent chunk
whose text is non-empty has at least one child". -/
theorem parent_child_linkage_cex :
    ((parentChildChunk (' ' :: '\n' :: ' ' :: []) 2 0 400 50).1.map (fun p => p.text) = [[' ']])
    ∧ (parentChildChunk (' ' :: '\n' :: ' ' :: []) 2 0 400 50).2 = [] := by
  decide

/-- C8, amended: every child's `parentId` resolves to exactly one parent
produced in the same run; and every parent whose text contains a character
that is neither whitespace nor `'.'` (whitespace-only parents can arise from
space-joined whitespace pieces, and parents whose only non-whitespace
characters are periods of `". "` separators can lose them to splitting) has
at least one child. -/
theorem parent_child_linkage (text : Str)
    (parentSize parentOverlap childSize childOverlap : Nat) (hc : 0 < childSize) :
    (∀ c ∈ (parentChildChunk text parentSize parentOverlap childSize childOverlap).2,
        (((parentChildChunk text parentSize parentOverlap childSize childOverlap).1).filter
          (fun p => p.id = c.parentId)).length = 1)
    ∧ (∀ p ∈ (parentChildChunk text parentSize parentOverlap childSize childOverlap).1,
        (∃ ch ∈ p.text, ¬ isWs ch ∧ ch ≠ '.') →
        ∃ c ∈ (parentChildChunk text parentSize parentOverlap childSize childOverlap).2,
          c.parentId = p.id) := by
  constructor
  · intro c hcmem
    obtain ⟨p, hpmem, hpid, _⟩ := mkChildren_mem childSize childOverlap _ 0 c hcmem
    obtain ⟨⟨k, _, hk, hid⟩, _⟩ := mkParents_mem _ 0 p hpmem
    have hcp : c.parentId = mkParentId k := by rw [hpid, hid]
    show ((mkParents 0 (splitAndMerge text parentSize parentOverlap)).filter
      (fun p => p.id = c.parentId)).length = 1
    rw [hcp]
    exact mkParents_filter_id_one _ 0 k (Nat.zero_le k) (by simpa using hk)
  · intro p hpmem hgood
    obtain ⟨ch, hchmem, hchws, hchdot⟩ := hgood
    have hkeep : (fun c => !isWs c && !(c == '.')) ch = true := by
      simp only [Bool.and_eq_true, Bool.not_eq_true]
      constructor
      · simp [hchws]
      · simpa using hchdot
    have hfil : p.text.filter (fun c => !isWs c && !(c == '.')) ≠ [] :=
      List.ne_nil_of_mem (List.mem_filter.mpr ⟨hchmem, hkeep⟩)
    have hraw := splitAndMergeRaw_filter (fun c => !isWs c && !(c == '.'))
      (fun c hcw => by simp [hcw]) childSize hc p.text (Or.inl (by decide))
    have hrawne : splitAndMergeRaw p.text childSize ≠ [] := by
      intro hnil
      rw [hnil] at hraw
      exact hfil hraw.symm
    have hsm : splitAndMerge p.text childSize childOverlap ≠ [] := by
      rw [splitAndMerge_eq_injectOverlap]
      intro hnil
      exact hrawne ((injectOverlap_eq_nil_iff childOverlap _).mp hnil)
    exact mkChildren_exists_child childSize childOverlap _ 0 p hpmem hsm

theorem parent_child_linkage_witness :
    (0 < 2)
    ∧ ((∀ c ∈ (parentChildChunk ('a' :: 'b' :: ' ' :: 'c' :: 'd' :: []) 3 0 2 0).2,
          (((parentChildChunk ('a' :: 'b' :: ' ' :: 'c' :: 'd' :: []) 3 0 2 0).1).filter
            (fun p => p.id = c.parentId)).length = 1)
      ∧ (∀ p ∈ (parentChildChunk ('a' :: 'b' :: ' ' :: 'c' :: 'd' :: []) 3 0 2 0).1,
          (∃ ch ∈ p.text, ¬ isWs ch ∧ ch ≠ '.') →
          ∃ c ∈ (parentChildChunk ('a' :: 'b' :: ' ' :: 'c' :: 'd' :: []) 3 0 2 0).2,
            c.parentId = p.id)) :=
  ⟨by decide, parent_child_linkage _ 3 0 2 0 (by decide)⟩

/-- C10, counterexample: the all-whitespace input `" \n "` with parent size 2
yields a NON-empty parent list (containing the whitespace-only parent `" "`),
refuting "the chunker returns an empty list of parent chunks and an empty
list of child chunks" for whitespace-only inputs. -/
theorem ws_only_input_cex :
    ((' ' :: '\n' :: ' ' :: []) : Str).all isWs = true
    ∧ (parentChildChunk (' ' :: '\n' :: ' ' :: []) 2 0 400 50).1 ≠ [] := by
  decide

/-- C10, amended: a whitespace-only input no longer than the parent size
yields empty parent and child lists; in general the chunker never produces a
chunk whose text is the EMPTY string, but it can produce whitespace-only
chunks (when whitespace pieces are merged with injected spaces). -/
theorem ws_only_input (text : Str) (parentSize parentOverlap childSize childOverlap : Nat)
    (hws : text.all isWs) (hlen : text.length ≤ parentSize) :
    parentChildChunk text parentSize parentOverlap childSize childOverlap = ([], [])
    ∧ (∀ (t : Str) (a b c d : Nat),
        (∀ p ∈ (parentChildChunk t a b c d).1, p.text ≠ [])
        ∧ (∀ ch ∈ (parentChildChunk t a b c d).2, ch.text ≠ [])) := by
  constructor
  · have hsm : splitAndMerge text parentSize parentOverlap = [] := by
      rw [splitAndMerge, splitRecursive_base SEPARATORS parentSize text hlen, mergeChunks]
      simp [trim_eq_nil_of_all_ws text hws]
    show (mkParents 0 (splitAndMerge text parentSize parentOverlap),
      mkChildren childSize childOverlap
        (mkParents 0 (splitAndMerge text parentSize parentOverlap)) 0) = ([], [])
    rw [hsm]
    rfl
  · intro t a b c d
    constructor
    · intro p hp
      obtain ⟨_, htext⟩ := mkParents_mem _ 0 p hp
      exact splitAndMerge_ne_nil t a b p.text htext
    · intro ch hch
      obtain ⟨p, _, _, htext⟩ := mkChildren_mem c d _ 0 ch hch
      exact splitAndMerge_ne_nil p.text c d ch.text htext

theorem ws_only_input_witness :
    ((((' ' :: ' ' :: []) : Str).all isWs = true) ∧ ((' ' :: ' ' :: []) : Str).length ≤ 5)
    ∧ (parentChildChunk (' ' :: ' ' :: []) 5 1 400 50 = ([], [])
      ∧ (∀ (t : Str) (a b c d : Nat),
          (∀ p ∈ (parentChildChunk t a b c d).1, p.text ≠ [])
          ∧ (∀ ch ∈ (parentChildChunk t a b c d).2, ch.text ≠ []))) :=
  ⟨⟨by decide, by decide⟩, ws_only_input _ 5 1 400 50 (by decide) (by decide)⟩

/-! ## The chat route (`src/app/api/chat/route.ts`) -/

/-- `const MAX_RECENT = 6` (route.ts line 7): 3 user/assistant pairs kept
verbatim in the prompt. -/
def MAX_RECENT : Nat := 6

/-- A conversation turn `{ role, content }` as sent in the request body. -/
structure RouteMsg where
  role : Str
  content : Str
deriving DecidableEq, Repr

/-- Token usage counts of one completion call. -/
structure Tokens where
  prompt : Nat
  completion : Nat
deriving DecidableEq, Repr

/-- The part of an OpenAI chat-completion response the route reads:
`res.choices[0]?.message?.content` (absent ⇒ `none`) and the usage counts
(`res.usage?.prompt_tokens ?? 0`, `res.usage?.completion_tokens ?? 0`,
with the `?? 0` folded into the oracle). -/
structure LLMResp where
  content : Option Str
  promptTokens : Nat
  completionTokens : Nat
deriving DecidableEq, Repr

/-- `reformulateQuery` (route.ts lines 17–53).  The external completion call
is the oracle `call`; a thrown exception is `Except.error` and propagates
uncaught, exactly as in the source (there is no `try` inside the function). -/
def reformulateQuery (call : Str → Str → List RouteMsg → Except Str LLMResp)
    (question summary : Str) (recentMessages : List RouteMsg) :
    Except Str (Str × Tokens) :=
  if recentMessages.length = 0 ∧ summary = [] then
    .ok (question, ⟨0, 0⟩)
  else
    match call question summary recentMessages with
    | .error e => .error e
    | .ok res =>
      let reformulated := trim (res.content.getD [])
      .ok (if reformulated = [] then question else reformulated,
        ⟨res.promptTokens, res.completionTokens⟩)

/-- `summarizeOverflow` (route.ts lines 56–87).  Empty (or absent) completion
content falls back to `existingSummary`; a thrown exception propagates. -/
def summarizeOverflow (call : Str → List RouteMsg → Except Str LLMResp)
    (existingSummary : Str) (newMessages : List RouteMsg) :
    Except Str (Str × Tokens) :=
  match call existingSummary newMessages with
  | .error e => .error e
  | .ok res =>
    let summ := trim (res.content.getD [])
    .ok (if summ = [] then existingSummary else summ,
      ⟨res.promptTokens, res.completionTokens⟩)

/-- Result of the memory-management section of `POST`. -/
structure MemoryOut where
  summary : Str
  msgCount : Nat
  tokens : Tokens
  recentMessages : List RouteMsg
deriving DecidableEq, Repr

/-- The memory-management section of `POST` (route.ts lines 113–138):
split prior turns into already-summarized / needs-summarizing / recent
window, summarize the overflow if non-empty and advance the boundary.
`previousMessages.slice(-MAX_RECENT)` is `drop (length - MAX_RECENT)` and
`previousMessages.slice(count, length - MAX_RECENT)` is
`(take (length - MAX_RECENT)).drop count`. -/
def memoryStep (call : Str → List RouteMsg → Except Str LLMResp)
    (previousMessages : List RouteMsg) (summary0 : Str) (count0 : Nat) :
    Except Str MemoryOut :=
  if MAX_RECENT < previousMessages.length then
    if 0 < ((previousMessages.take (previousMessages.length - MAX_RECENT)).drop
        count0).length then
      match summarizeOverflow call summary0
          ((previousMessages.take (previousMessages.length - MAX_RECENT)).drop count0) with
      | .error e => .error e
      | .ok (s, tok) =>
        .ok ⟨s, previousMessages.length - MAX_RECENT, tok,
          previousMessages.drop (previousMessages.length - MAX_RECENT)⟩
    else
      .ok ⟨summary0, count0, ⟨0, 0⟩,
        previousMessages.drop (previousMessages.length - MAX_RECENT)⟩
  else .ok ⟨summary0, count0, ⟨0, 0⟩, previousMessages⟩

/-- The metadata fields of a Pinecone match the route reads (route.ts
lines 162–166); absent fields are `none`. -/
structure SearchMeta where
  parentId : Option Str
  parentText : Option Str
  text : Option Str
deriving DecidableEq, Repr

/-- One search result `{ id, score, metadata }`.  The similarity score is a
float in the source; it is modelled as `Int` here — the context-assembly
logic never reads it (results are consumed in arrival order). -/
structure SearchResult where
  score : Int
  metadata : SearchMeta
deriving DecidableEq, Repr

/-- `String(r.metadata.parentId ?? "")` (route.ts line 163). -/
def pidOf (r : SearchResult) : Str := r.metadata.parentId.getD []

/-- `String(r.metadata.parentText ?? r.metadata.text ?? "")` (route.ts line 166). -/
def ptextOf (r : SearchResult) : Str :=
  (r.metadata.parentText.orElse (fun _ => r.metadata.text)).getD []

/-- The deduplication loop of `POST` (route.ts lines 160–168): the `Set` of
seen parent ids is a list, `parentTexts` is built in arrival order; an empty
parent id is never added to the seen set (JS string truthiness) and an empty
parent text is never pushed. -/
def buildLoop : List SearchResult → List Str → List Str
  | [], _ => []
  | r :: rs, seen =>
    if pidOf r ≠ [] ∧ pidOf r ∈ seen then buildLoop rs seen
    else
      (if ptextOf r ≠ [] then [ptextOf r] else []) ++
        buildLoop rs (if pidOf r ≠ [] then pidOf r :: seen else seen)

/-- The deduplicated parent texts, in arrival order. -/
def buildParentTexts (results : List SearchResult) : List Str := buildLoop results []

/-- `"No relevant context found in the uploaded documents."` (route.ts line 171). -/
def CONTEXT_SENTINEL : Str :=
  ("No relevant context found in the uploaded documents.").data

/-- `"\n\n---\n\n"`, the context delimiter (route.ts line 170). -/
def CONTEXT_DELIM : Str := '\n' :: '\n' :: '-' :: '-' :: '-' :: '\n' :: '\n' :: []

/-- Context assembly (route.ts lines 169–171). -/
def buildContext (results : List SearchResult) : Str :=
  if buildParentTexts results ≠ [] then joinSep CONTEXT_DELIM (buildParentTexts results)
  else CONTEXT_SENTINEL

/-! ## The stream trailer encoding (route.ts lines 198–243) and its decoder
(`extractSentinels`, ChatView.tsx lines 34–62) -/

/-- One character escaped as by `JSON.stringify` for string values:
`"` and `\\` are backslash-escaped, the named control escapes are used for
backspace, form feed, newline, carriage return and tab, all other control
characters (code < 0x20) become `\\u00XX` (lowercase hex), and every other
character is emitted as itself. -/
def escapeJsonChar (c : Char) : Str :=
  if c = '\"' then ['\\', '\"']
  else if c = '\\' then ['\\', '\\']
  else if c = '\x08' then ['\\', 'b']
  else if c = '\x0c' then ['\\', 'f']
  else if c = '\n' then ['\\', 'n']
  else if c = '\r' then ['\\', 'r']
  else if c = '\t' then ['\\', 't']
  else if c.toNat < 0x20 then
    ['\\', 'u', '0', '0', Nat.digitChar (c.toNat / 16), Nat.digitChar (c.toNat % 16)]
  else [c]

/-- `JSON.stringify` escaping of a whole string value. -/
def escapeJson (s : Str) : Str := (s.map escapeJsonChar).flatten

/-- `\x7b"prompt":` — the opening of the usage payload. -/
def usageKeyPre : Str :=
  '\x7b' :: '\"' :: 'p' :: 'r' :: 'o' :: 'm' :: 'p' :: 't' :: '\"' :: ':' :: []

/-- `,"completion":` -/
def usageKeyMid : Str :=
  ',' :: '\"' :: 'c' :: 'o' :: 'm' :: 'p' :: 'l' :: 'e' :: 't' :: 'i' :: 'o' :: 'n' ::
    '\"' :: ':' :: []

/-- `,"total":` -/
def usageKeyTot : Str :=
  ',' :: '\"' :: 't' :: 'o' :: 't' :: 'a' :: 'l' :: '\"' :: ':' :: []

/-- `JSON.stringify({ prompt, completion, total })` (route.ts lines 220–224):
object-literal key order is preserved, numbers are rendered in decimal, no
whitespace is emitted. -/
def usageJson (prompt completion total : Nat) : Str :=
  usageKeyPre ++ natDecimal prompt ++ usageKeyMid ++ natDecimal completion ++
    usageKeyTot ++ natDecimal total ++ ['\x7d']

/-- `\x7b"text":"` — the opening of the summary payload. -/
def summaryKeyPre : Str :=
  '\x7b' :: '\"' :: 't' :: 'e' :: 'x' :: 't' :: '\"' :: ':' :: '\"' :: []

/-- `","msgCount":` -/
def summaryKeyMid : Str :=
  '\"' :: ',' :: '\"' :: 'm' :: 's' :: 'g' :: 'C' :: 'o' :: 'u' :: 'n' :: 't' ::
    '\"' :: ':' :: []

/-- `JSON.stringify({ text, msgCount })` (route.ts lines 229–232). -/
def summaryJson (text : Str) (msgCount : Nat) : Str :=
  summaryKeyPre ++ escapeJson text ++ summaryKeyMid ++ natDecimal msgCount ++ ['\x7d']

/-- `"\n\n<!--USAGE:"` — the usage sentinel opener including the two
newlines prepended by the route (route.ts line 220). -/
def USAGE_MARKER : Str :=
  '\n' :: '\n' :: '<' :: '!' :: '-' :: '-' :: 'U' :: 'S' :: 'A' :: 'G' :: 'E' :: ':' :: []

/-- `"<!--SUMMARY:"` (route.ts line 229). -/
def SUMMARY_MARKER : Str :=
  '<' :: '!' :: '-' :: '-' :: 'S' :: 'U' :: 'M' :: 'M' :: 'A' :: 'R' :: 'Y' :: ':' :: []

/-- `"-->"`, the sentinel closer. -/
def ARROW : Str := '-' :: '-' :: '>' :: []

/-- The full stream body built by the route (route.ts lines 203–243): the
streamed answer text, then the usage sentinel, then — only when
`currentSummary` is truthy (non-empty) — the summary sentinel. -/
def encodeStream (answer : Str) (prompt completion : Nat) (summary : Str)
    (msgCount : Nat) : Str :=
  answer ++ USAGE_MARKER ++ usageJson prompt completion (prompt + completion) ++ ARROW ++
    (if summary ≠ [] then SUMMARY_MARKER ++ summaryJson summary msgCount ++ ARROW else [])

/-! ### The chat `POST` handler -/

/-- The request body fields `POST` destructures (route.ts line 97), with the
defaults `summary = ""`, `summaryMsgCount = 0` already applied and
`selectedDocuments` empty when absent. -/
structure ChatReq where
  messages : List RouteMsg
  sessionId : Str
  selectedDocuments : List Str
  summary : Str
  summaryMsgCount : Nat
deriving DecidableEq, Repr

/-- A chat response: a JSON error with an HTTP status, or the text stream. -/
inductive ChatOut where
  | jsonError (status : Nat) (msg : Str)
  | stream (body : Str)
deriving DecidableEq, Repr

/-- The external collaborators of the route, each returning `Except` (a
thrown exception is `Except.error`): the summarization and reformulation
completion calls, the embedding gateway, the Pinecone query (top-K and the
optional `source`-filter are passed through), the answer-generation call
(returning the full streamed answer text plus its usage counts), and the
presence of `OPENAI_API_KEY`.  `Vec` is the opaque embedding-vector type. -/
structure Oracles (Vec : Type) where
  hasApiKey : Bool
  summCall : Str → List RouteMsg → Except Str LLMResp
  reformCall : Str → Str → List RouteMsg → Except Str LLMResp
  embedCall : Str → Except Str Vec
  searchCall : Str → Vec → Nat → Option (List Str) → Except Str (List SearchResult)
  genCall : Str → Str → List RouteMsg → Str → Except Str (Str × Nat × Nat)

def USER_ROLE : Str := ("user").data

/-- The body of the `try` block of `POST` (route.ts lines 112–250): memory
management, reformulation, embedding, search, deduplicated context assembly,
generation, and the sentinel-encoded stream.  Any `Except.error` short-circuits
to the `catch` (`chatPOST` maps it to a 500 response). -/
def chatTryBody {Vec : Type} (o : Oracles Vec) (req : ChatReq)
    (lastMessage : RouteMsg) : Except Str Str := do
  let previousMessages := req.messages.dropLast
  let mem ← memoryStep o.summCall previousMessages req.summary req.summaryMsgCount
  let rf ← reformulateQuery o.reformCall lastMessage.content mem.summary mem.recentMessages
  let queryVector ← o.embedCall rf.1
  let filter := if req.selectedDocuments ≠ [] then some req.selectedDocuments else none
  let results ← o.searchCall req.sessionId queryVector 10 filter
  let context := buildContext results
  let gen ← o.genCall context mem.summary mem.recentMessages lastMessage.content
  let totalPrompt := gen.2.1 + rf.2.prompt + mem.tokens.prompt
  let totalCompletion := gen.2.2 + rf.2.completion + mem.tokens.completion
  pure (encodeStream gen.1 totalPrompt totalCompletion mem.summary mem.msgCount)

/-- `POST` (route.ts lines 89–256): validation, then the `try` body, with any
thrown error surfaced as a 500 JSON response. -/
def chatPOST {Vec : Type} (o : Oracles Vec) (req : ChatReq) : ChatOut :=
  if req.sessionId = [] then .jsonError 400 ("Missing sessionId").data
  else if ¬ o.hasApiKey then .jsonError 500 ("OPENAI_API_KEY not configured").data
  else
    match req.messages.getLast? with
    | none => .jsonError 400 ("No user message found").data
    | some lastMessage =>
      if lastMessage.role ≠ USER_ROLE then .jsonError 400 ("No user message found").data
      else
        match chatTryBody o req lastMessage with
        | .error e => .jsonError 500 e
        | .ok body => .stream body

/-- The `\s*$` tail test of the sentinel regexes. -/
def wsOnly (s : Str) : Bool := s.all isWs

/-- The lazy capture `(.*?)-->\s*$` of the sentinel regexes, applied to the
text following a matched marker: the shortest prefix containing no line
terminator (JS regex `.` matches any character EXCEPT `\n`, `\r`, U+2028,
U+2029) that is followed by `-->` and then only whitespace up to the end of
the string.  Returns the capture, or `none` when no such split exists. -/
def lazyCap : Str → Option Str
  | [] => none
  | c :: cs =>
    if ARROW.isPrefixOf (c :: cs) ∧ wsOnly ((c :: cs).drop 3) then some []
    else if isLineTerm c then none
    else (lazyCap cs).map (c :: ·)

/-- Whether `marker(.*?)-->\s*$` matches AT the start of `s`, returning the
capture if so. -/
def headMatch (marker : Str) (s : Str) : Option Str :=
  if marker.isPrefixOf s then lazyCap (s.drop marker.length) else none

/-- The leftmost match of `marker(.*?)-->\s*$` in a text (JS
`String.prototype.match` without the `g` flag): scan candidate start
positions left to right; at the first position where the literal marker
matches and the lazy capture succeeds, return the text before the match
(`slice(0, match.index)`) and the capture. -/
def findCap (marker : Str) : Str → Option (Str × Str)
  | [] => none
  | c :: cs =>
    match headMatch marker (c :: cs) with
    | some cap => some ([], cap)
    | none =>
      match findCap marker cs with
      | some (pre, cap) => some (c :: pre, cap)
      | none => none

/-- Value of one hexadecimal digit. -/
def hexVal (c : Char) : Option Nat :=
  if '0' ≤ c ∧ c ≤ '9' then some (c.toNat - 48)
  else if 'a' ≤ c ∧ c ≤ 'f' then some (c.toNat - 87)
  else if 'A' ≤ c ∧ c ≤ 'F' then some (c.toNat - 55)
  else none

/-- `JSON.parse` of a string body (the part after the opening quote):
consume characters and escape sequences up to the closing quote, returning
the decoded text and the remainder after the closing quote.  Raw control
characters and malformed escapes are rejected, as by `JSON.parse`. -/
def unescapeEsc (e : Char) : Option Char :=
  if e = '\"' then some '\"'
  else if e = '\\' then some '\\'
  else if e = '/' then some '/'
  else if e = 'b' then some '\x08'
  else if e = 'f' then some '\x0c'
  else if e = 'n' then some '\n'
  else if e = 'r' then some '\r'
  else if e = 't' then some '\t'
  else none

def unescapeJson : Str → Option (Str × Str)
  | [] => none
  | c :: cs =>
    if c = '\"' then some ([], cs)
    else if c = '\\' then
      match cs with
      | [] => none
      | 'u' :: h1 :: h2 :: h3 :: h4 :: rest =>
        match hexVal h1, hexVal h2, hexVal h3, hexVal h4 with
        | some v1, some v2, some v3, some v4 =>
          (unescapeJson rest).map
            (fun pr => (Char.ofNat (4096 * v1 + 256 * v2 + 16 * v3 + v4) :: pr.1, pr.2))
        | _, _, _, _ => none
      | e :: rest =>
        match unescapeEsc e with
        | some d => (unescapeJson rest).map (fun pr => (d :: pr.1, pr.2))
        | none => none
    else if c.toNat < 0x20 then none
    else (unescapeJson cs).map (fun pr => (c :: pr.1, pr.2))


/-- Greedy digit run with accumulator. -/
def parseDigits : Str → Nat → Nat × Str
  | [], acc => (acc, [])
  | c :: cs, acc =>
    if c.isDigit then parseDigits cs (acc * 10 + (c.toNat - 48)) else (acc, c :: cs)

/-- Parse a (non-empty) decimal number, as `JSON.parse` does for the
non-negative integers the sentinels carry. -/
def parseNat : Str → Option (Nat × Str)
  | [] => none
  | c :: cs => if c.isDigit then some (parseDigits (c :: cs) 0) else none

/-- Expect a literal prefix. -/
def expectStr (pre s : Str) : Option Str :=
  if pre.isPrefixOf s then some (s.drop pre.length) else none

/-- `","msgCount":` without the closing quote of the text field (which
`unescapeJson` already consumed). -/
def summaryKeyMid2 : Str :=
  ',' :: '\"' :: 'm' :: 's' :: 'g' :: 'C' :: 'o' :: 'u' :: 'n' :: 't' :: '\"' :: ':' :: []

/-- `JSON.parse` of the summary payload, restricted to the exact shape
`\x7b"text":"…","msgCount":N\x7d` that the route's `JSON.stringify` emits
(ChatView.tsx line 47 reads `.text` and `.msgCount` from the parsed value). -/
def decodeSummary (s : Str) : Option (Str × Nat) := do
  let s1 ← expectStr summaryKeyPre s
  let (text, s2) ← unescapeJson s1
  let s3 ← expectStr summaryKeyMid2 s2
  let (n, s4) ← parseNat s3
  let s5 ← expectStr ['\x7d'] s4
  if s5 = [] then some (text, n) else none

/-- The frontend `TokenUsage` value `\x7b prompt, completion, total \x7d`. -/
structure UsageVal where
  prompt : Nat
  completion : Nat
  total : Nat
deriving DecidableEq, Repr

/-- `JSON.parse` of the usage payload, restricted to the exact shape
`\x7b"prompt":P,"completion":C,"total":T\x7d` the route emits. -/
def decodeUsage (s : Str) : Option UsageVal := do
  let s1 ← expectStr usageKeyPre s
  let (p, s2) ← parseNat s1
  let s3 ← expectStr usageKeyMid s2
  let (c, s4) ← parseNat s3
  let s5 ← expectStr usageKeyTot s4
  let (t, s6) ← parseNat s5
  let s7 ← expectStr ['\x7d'] s6
  if s7 = [] then some ⟨p, c, t⟩ else none

/-- `extractSentinels` (ChatView.tsx lines 34–62): first strip a trailing
`<!--SUMMARY:…-->` segment (the displayed text is cut at `match.index` even
when the JSON payload fails to parse), then strip a trailing
`\n\n<!--USAGE:…-->` segment from what remains.  Absent segments yield
`none`, not an error. -/
def extractSentinels (text : Str) : Str × Option UsageVal × Option (Str × Nat) :=
  let stage1 :=
    match findCap SUMMARY_MARKER text with
    | some (pre, cap) => (pre, decodeSummary cap)
    | none => (text, none)
  let stage2 :=
    match findCap USAGE_MARKER stage1.1 with
    | some (pre, cap) => (pre, decodeUsage cap)
    | none => (stage1.1, none)
  (stage2.1, stage2.2, stage1.2)

/-! ## Memory-management lemmas (C1, C2) -/

/-- Case analysis on a successful memory step: either nothing changed (no
prior turns beyond the window, or no new overflow), or the boundary advanced
to `len - MAX_RECENT` because there was overflow. -/
theorem memoryStep_cases (call : Str → List RouteMsg → Except Str LLMResp)
    (prev : List RouteMsg) (s0 : Str) (c0 : Nat) (out : MemoryOut)
    (h : memoryStep call prev s0 c0 = .ok out) :
    (out.msgCount = c0 ∧ out.summary = s0 ∧ out.tokens = ⟨0, 0⟩
        ∧ (prev.length - MAX_RECENT ≤ c0 ∨ prev.length ≤ MAX_RECENT))
    ∨ (out.msgCount = prev.length - MAX_RECENT ∧ MAX_RECENT < prev.length
        ∧ c0 < prev.length - MAX_RECENT) := by
  unfold memoryStep at h
  split_ifs at h with h1 h2
  · cases hso : summarizeOverflow call s0
        ((prev.take (prev.length - MAX_RECENT)).drop c0) with
    | error e => rw [hso] at h; exact absurd h (by simp)
    | ok pr =>
      obtain ⟨sNew, tok⟩ := pr
      rw [hso] at h
      simp only [Except.ok.injEq] at h
      subst h
      right
      refine ⟨rfl, h1, ?_⟩
      simp only [List.length_drop, List.length_take] at h2
      omega
  · simp only [Except.ok.injEq] at h
    subst h
    left
    refine ⟨rfl, rfl, rfl, Or.inl ?_⟩
    simp only [List.length_drop, List.length_take] at h2
    omega
  · simp only [Except.ok.injEq] at h
    subst h
    exact Or.inl ⟨rfl, rfl, rfl, Or.inr (Nat.le_of_not_lt h1)⟩

/-- The recent window returned by a successful memory step. -/
theorem memoryStep_recent (call : Str → List RouteMsg → Except Str LLMResp)
    (prev : List RouteMsg) (s0 : Str) (c0 : Nat) (out : MemoryOut)
    (h : memoryStep call prev s0 c0 = .ok out) :
    out.recentMessages =
      if MAX_RECENT < prev.length then prev.drop (prev.length - MAX_RECENT) else prev := by
  unfold memoryStep at h
  split_ifs at h with h1 h2
  · rw [if_pos h1]
    cases hso : summarizeOverflow call s0
        ((prev.take (prev.length - MAX_RECENT)).drop c0) with
    | error e => rw [hso] at h; exact absurd h (by simp)
    | ok pr =>
      obtain ⟨sNew, tok⟩ := pr
      rw [hso] at h
      simp only [Except.ok.injEq] at h
      subst h
      rfl
  · rw [if_pos h1]
    simp only [Except.ok.injEq] at h
    subst h
    rfl
  · rw [if_neg h1]
    simp only [Except.ok.injEq] at h
    subst h
    rfl

/-- Threading the memory state through a sequence of calls, the caller
passing each returned state into the next call (the caller-side loop the
spec describes). -/
def threadMem (call : Str → List RouteMsg → Except Str LLMResp) :
    List (List RouteMsg) → Str → Nat → Except Str (Str × Nat)
  | [], s, c => .ok (s, c)
  | prev :: rest, s, c =>
    match memoryStep call prev s c with
    | .error e => .error e
    | .ok out => threadMem call rest out.summary out.msgCount

theorem threadMem_bound (call : Str → List RouteMsg → Except Str LLMResp)
    (L : List RouteMsg) :
    ∀ (snaps : List (List RouteMsg)) (s1 sEnd : Str) (c1 cEnd : Nat),
      c1 ≤ L.length - MAX_RECENT → (∀ x ∈ snaps, x.length ≤ L.length) →
      threadMem call snaps s1 c1 = .ok (sEnd, cEnd) →
      cEnd ≤ L.length - MAX_RECENT := by
  intro snaps
  induction snaps with
  | nil =>
    intro s1 sEnd c1 cEnd hc1 _ h
    rw [threadMem] at h
    simp only [Except.ok.injEq, Prod.mk.injEq] at h
    omega
  | cons prev rest ih =>
    intro s1 sEnd c1 cEnd hc1 hlen h
    rw [threadMem] at h
    cases hm : memoryStep call prev s1 c1 with
    | error e => rw [hm] at h; exact absurd h (by simp)
    | ok out =>
      rw [hm] at h
      have hx : prev.length ≤ L.length := hlen prev (List.mem_cons_self prev rest)
      have hrest : ∀ x ∈ rest, x.length ≤ L.length :=
        fun x hxm => hlen x (List.mem_cons_of_mem prev hxm)
      rcases memoryStep_cases call prev s1 c1 out hm with ⟨hcnt, _⟩ | ⟨hcnt, _, _⟩
      · exact ih out.summary sEnd out.msgCount cEnd (by omega) hrest h
      · exact ih out.summary sEnd out.msgCount cEnd (by omega) hrest h

/-- C1: for a conversation growing turn by turn with the caller threading the
returned memory state back in, the summarized-turn count never decreases
(conjunct 1), never exceeds `len(prior turns) - MAX_RECENT` — truncated
subtraction, the bound being preserved from any state already satisfying it,
in particular from the initial count 0 (conjuncts 2 and 4) — and a repeated
call on the same prior turns with no new overflow returns the same summary
and index with zero token cost (conjunct 3). -/
theorem summary_boundary (call : Str → List RouteMsg → Except Str LLMResp)
    (prev : List RouteMsg) (s0 : Str) (c0 : Nat) (out : MemoryOut)
    (h : memoryStep call prev s0 c0 = .ok out) :
    (c0 ≤ out.msgCount)
    ∧ (c0 ≤ prev.length - MAX_RECENT → out.msgCount ≤ prev.length - MAX_RECENT)
    ∧ (memoryStep call prev out.summary out.msgCount
        = .ok ⟨out.summary, out.msgCount, ⟨0, 0⟩, out.recentMessages⟩)
    ∧ (∀ (snaps : List (List RouteMsg)) (s1 sEnd : Str) (c1 cEnd : Nat)
          (L : List RouteMsg),
        c1 ≤ L.length - MAX_RECENT → (∀ x ∈ snaps, x.length ≤ L.length) →
        threadMem call snaps s1 c1 = .ok (sEnd, cEnd) →
        cEnd ≤ L.length - MAX_RECENT) := by
  have hcases := memoryStep_cases call prev s0 c0 out h
  have hrecent := memoryStep_recent call prev s0 c0 out h
  refine ⟨?_, ?_, ?_, ?_⟩
  · rcases hcases with ⟨hc, _⟩ | ⟨hc, _, hlt⟩ <;> omega
  · intro hb
    rcases hcases with ⟨hc, _⟩ | ⟨hc, _, _⟩ <;> omega
  · have hge : prev.length - MAX_RECENT ≤ out.msgCount ∨ prev.length ≤ MAX_RECENT := by
      rcases hcases with ⟨hc, _, _, hd⟩ | ⟨hc, _, _⟩ <;> omega
    unfold memoryStep
    by_cases h1 : MAX_RECENT < prev.length
    · rw [if_pos h1]
      have hov : ¬ 0 < ((prev.take (prev.length - MAX_RECENT)).drop
          out.msgCount).length := by
        simp only [List.length_drop, List.length_take]
        omega
      rw [if_neg hov, hrecent, if_pos h1]
    · rw [if_neg h1, hrecent, if_neg h1]
  · intro snaps s1 sEnd c1 cEnd L hc1 hlen ht
    exact threadMem_bound call L snaps s1 sEnd c1 cEnd hc1 hlen ht

theorem summary_boundary_witness :
    (memoryStep (fun _ _ => .ok ⟨some (("new summary").data), 11, 7⟩)
        (List.replicate 8 ⟨USER_ROLE, ("m").data⟩) (("old").data) 0
      = .ok ⟨("new summary").data, 2, ⟨11, 7⟩,
          List.replicate 6 ⟨USER_ROLE, ("m").data⟩⟩)
    ∧ ((0 ≤ (2 : Nat))
      ∧ (0 ≤ (List.replicate 8 (⟨USER_ROLE, ("m").data⟩ : RouteMsg)).length - MAX_RECENT →
          2 ≤ (List.replicate 8 (⟨USER_ROLE, ("m").data⟩ : RouteMsg)).length - MAX_RECENT)
      ∧ (memoryStep (fun _ _ => .ok ⟨some (("new summary").data), 11, 7⟩)
            (List.replicate 8 ⟨USER_ROLE, ("m").data⟩) (("new summary").data) 2
          = .ok ⟨("new summary").data, 2, ⟨0, 0⟩,
              List.replicate 6 ⟨USER_ROLE, ("m").data⟩⟩)
      ∧ (∀ (snaps : List (List RouteMsg)) (s1 sEnd : Str) (c1 cEnd : Nat)
            (L : List RouteMsg),
          c1 ≤ L.length - MAX_RECENT → (∀ x ∈ snaps, x.length ≤ L.length) →
          threadMem (fun _ _ => .ok ⟨some (("new summary").data), 11, 7⟩)
              snaps s1 c1 = .ok (sEnd, cEnd) →
          cEnd ≤ L.length - MAX_RECENT)) := by
  refine ⟨rfl, ?_⟩
  have h := summary_boundary (fun _ _ => .ok ⟨some (("new summary").data), 11, 7⟩)
    (List.replicate 8 ⟨USER_ROLE, ("m").data⟩) (("old").data) 0
    ⟨("new summary").data, 2, ⟨11, 7⟩, List.replicate 6 ⟨USER_ROLE, ("m").data⟩⟩
    rfl
  exact h

/-- C2, counterexample: a thrown summarization call is NOT caught inside the
route — it propagates to the outer `catch` and the whole request fails with
a 500 JSON error, contradicting "the summarization failure is a documented
fallback, not a request-level failure". -/
theorem summarization_failure_cex :
    @chatPOST Unit
      ⟨true,
        fun _ _ => .error (("summ down").data),
        fun _ _ _ => .ok ⟨none, 0, 0⟩,
        fun _ => .ok (),
        fun _ _ _ _ => .ok [],
        fun _ _ _ _ => .ok ([], 0, 0)⟩
      ⟨List.replicate 7 ⟨USER_ROLE, ("m").data⟩ ++ [⟨USER_ROLE, ("q").data⟩],
        ("s1").data, [], [], 0⟩
      = .jsonError 500 (("summ down").data) := by
  decide

/-- C2, amended: when there is new overflow, a THROWN summarization call
propagates and fails the whole request (so `summarizedThroughIndex` is not
advanced — the caller keeps its old state and the same overflow is retried
next turn); an EMPTY summarization output keeps the previous summary
unchanged, but the boundary index still advances past the overflow. -/
theorem summarization_failure (call : Str → List RouteMsg → Except Str LLMResp)
    (prev : List RouteMsg) (s0 : Str) (c0 : Nat)
    (hlen : MAX_RECENT < prev.length) (hover : c0 < prev.length - MAX_RECENT) :
    (∀ e, call s0 ((prev.take (prev.length - MAX_RECENT)).drop c0) = .error e →
        memoryStep call prev s0 c0 = .error e)
    ∧ (∀ res, call s0 ((prev.take (prev.length - MAX_RECENT)).drop c0) = .ok res →
        trim (res.content.getD []) = [] →
        memoryStep call prev s0 c0 =
          .ok ⟨s0, prev.length - MAX_RECENT,
            ⟨res.promptTokens, res.completionTokens⟩,
            prev.drop (prev.length - MAX_RECENT)⟩) := by
  have hov : 0 < ((prev.take (prev.length - MAX_RECENT)).drop c0).length := by
    simp only [List.length_drop, List.length_take]
    omega
  constructor
  · intro e hcall
    unfold memoryStep
    rw [if_pos hlen, if_pos hov]
    unfold summarizeOverflow
    rw [hcall]
  · intro res hcall htrim
    unfold memoryStep
    rw [if_pos hlen, if_pos hov]
    unfold summarizeOverflow
    rw [hcall]
    simp [htrim]

theorem summarization_failure_witness :
    (memoryStep (fun _ _ => .error (("boom").data))
        (List.replicate 9 ⟨USER_ROLE, ("m").data⟩) (("old").data) 1
      = .error (("boom").data))
    ∧ (memoryStep (fun _ _ => .ok ⟨some ((" ").data), 5, 0⟩)
        (List.replicate 9 ⟨USER_ROLE, ("m").data⟩) (("old").data) 1
      = .ok ⟨("old").data, 3, ⟨5, 0⟩, List.replicate 6 ⟨USER_ROLE, ("m").data⟩⟩) := by
  constructor
  · exact (summarization_failure (fun _ _ => .error (("boom").data))
      (List.replicate 9 ⟨USER_ROLE, ("m").data⟩) (("old").data) 1
      (by decide) (by decide)).1 _ rfl
  · have h := (summarization_failure (fun _ _ => .ok ⟨some ((" ").data), 5, 0⟩)
      (List.replicate 9 ⟨USER_ROLE, ("m").data⟩) (("old").data) 1
      (by decide) (by decide)).2 ⟨some ((" ").data), 5, 0⟩ rfl (by decide)
    simpa using h

/-! ## Deduplication lemmas (C5) -/

/-- A result whose (non-empty) parent id is already in the seen set is
skipped entirely, wherever it sits in the remaining list: it contributes no
text and does not change the fold. -/
theorem buildLoop_skip (p : Str) (hpne : p ≠ []) (r2 : SearchResult)
    (h2 : pidOf r2 = p) :
    ∀ (xs ys : List SearchResult) (seen : List Str), p ∈ seen →
      buildLoop (xs ++ r2 :: ys) seen = buildLoop (xs ++ ys) seen := by
  intro xs
  induction xs with
  | nil =>
    intro ys seen hs
    simp only [List.nil_append]
    rw [buildLoop, if_pos (by rw [h2]; exact ⟨hpne, hs⟩)]
  | cons x xs ih =>
    intro ys seen hs
    simp only [List.cons_append]
    rw [buildLoop, buildLoop]
    by_cases hx : pidOf x ≠ [] ∧ pidOf x ∈ seen
    · rw [if_pos hx, if_pos hx, ih ys seen hs]
    · rw [if_neg hx, if_neg hx]
      congr 1
      by_cases hpx : pidOf x ≠ []
      · simp only [if_pos hpx]
        exact ih ys (pidOf x :: seen) (List.mem_cons_of_mem _ hs)
      · simp only [if_neg hpx]
        exact ih ys seen hs

theorem buildLoop_dedup (r1 r2 : SearchResult) (hp : pidOf r1 ≠ [])
    (heq : pidOf r2 = pidOf r1) :
    ∀ (pre : List SearchResult) (mid post : List SearchResult) (seen : List Str),
      buildLoop (pre ++ r1 :: (mid ++ r2 :: post)) seen
        = buildLoop (pre ++ r1 :: (mid ++ post)) seen := by
  intro pre
  induction pre with
  | nil =>
    intro mid post seen
    simp only [List.nil_append]
    rw [buildLoop, buildLoop]
    by_cases h1 : pidOf r1 ≠ [] ∧ pidOf r1 ∈ seen
    · rw [if_pos h1, if_pos h1,
        buildLoop_skip (pidOf r1) hp r2 heq mid post seen h1.2]
    · rw [if_neg h1, if_neg h1]
      congr 1
      simp only [if_pos hp]
      exact buildLoop_skip (pidOf r1) hp r2 heq mid post _ (List.mem_cons_self _ _)
  | cons x pre ih =>
    intro mid post seen
    simp only [List.cons_append]
    rw [buildLoop, buildLoop]
    by_cases hx : pidOf x ≠ [] ∧ pidOf x ∈ seen
    · rw [if_pos hx, if_pos hx, ih mid post seen]
    · rw [if_neg hx, if_neg hx]
      congr 1
      by_cases hpx : pidOf x ≠ []
      · simp only [if_pos hpx]
        exact ih mid post (pidOf x :: seen)
      · simp only [if_neg hpx]
        exact ih mid post seen

/-- C5, counterexample: two results sharing the SAME parentId — the empty
string (a legal metadata value; JS `String(r.metadata.parentId ?? "")` also
yields it when the field is absent) — are NOT deduplicated, because the
route's `if (pid)` truthiness guards skip empty ids entirely: the shared
parent text appears twice in the assembled context. -/
theorem dedup_cex :
    buildParentTexts
        [⟨0, ⟨some [], some (("T").data), none⟩⟩, ⟨0, ⟨some [], some (("T").data), none⟩⟩]
      = [("T").data, ("T").data] := by
  decide

/-- C5, amended: for any result list in which two matches share the same
NON-EMPTY parentId, the later match is discarded regardless of score — the
assembled parent-text list is unchanged by deleting it, so the parent's text
is contributed exactly once, by its first (highest-scoring, given
descending-score order) match; and an empty result list yields the literal
"no relevant context" sentinel string rather than the empty string. -/
theorem dedup (r1 r2 : SearchResult) (pre mid post : List SearchResult)
    (hp : pidOf r1 ≠ []) (heq : pidOf r2 = pidOf r1) :
    buildParentTexts (pre ++ r1 :: (mid ++ r2 :: post))
      = buildParentTexts (pre ++ r1 :: (mid ++ post))
    ∧ buildContext [] = CONTEXT_SENTINEL := by
  exact ⟨buildLoop_dedup r1 r2 hp heq pre mid post [], rfl⟩

theorem dedup_witness :
    buildParentTexts
        [⟨(5 : Int), ⟨some (("p-0").data), some (("A").data), none⟩⟩,
          ⟨(3 : Int), ⟨some (("p-1").data), some (("B").data), none⟩⟩,
          ⟨(1 : Int), ⟨some (("p-0").data), some (("A").data), none⟩⟩]
      = buildParentTexts
        [⟨(5 : Int), ⟨some (("p-0").data), some (("A").data), none⟩⟩,
          ⟨(3 : Int), ⟨some (("p-1").data), some (("B").data), none⟩⟩]
    ∧ buildContext [] = CONTEXT_SENTINEL :=
  dedup ⟨(5 : Int), ⟨some (("p-0").data), some (("A").data), none⟩⟩
    ⟨(1 : Int), ⟨some (("p-0").data), some (("A").data), none⟩⟩
    [] [⟨(3 : Int), ⟨some (("p-1").data), some (("B").data), none⟩⟩] []
    (by decide) (by decide)

/-! ## Reformulation (C6, C7) -/

/-- C7: with no prior summary and no recent turns, the reformulation step
returns the input query unchanged with zero prompt and completion tokens,
for EVERY completion oracle — i.e. without consulting the completion service
at all. -/
theorem reformulation_no_context
    (call : Str → Str → List RouteMsg → Except Str LLMResp) (question : Str) :
    reformulateQuery call question [] [] = .ok (question, ⟨0, 0⟩) := rfl

/-- C6, counterexample: a thrown reformulation call is NOT caught inside the
route — it propagates to the outer `catch` and the whole request fails with
a 500 JSON error, contradicting "this call is never allowed to fail the
overall request". -/
theorem reformulation_failure_cex :
    @chatPOST Unit
      ⟨true,
        fun _ _ => .ok ⟨none, 0, 0⟩,
        fun _ _ _ => .error (("reform down").data),
        fun _ => .ok (),
        fun _ _ _ _ => .ok [],
        fun _ _ _ _ => .ok ([], 0, 0)⟩
      ⟨[⟨USER_ROLE, ("hi").data⟩], ("s1").data, [], ("prior summary").data, 0⟩
      = .jsonError 500 (("reform down").data) := by
  decide

/-- C6, amended: when the reformulation call runs (non-trivial context), an
EMPTY (or whitespace-only, or absent) completion output falls back to the
original query verbatim, but a THROWN call propagates and fails the overall
request. -/
theorem reformulation_fallback
    (call : Str → Str → List RouteMsg → Except Str LLMResp)
    (q s : Str) (r : List RouteMsg) (hctx : ¬ (r.length = 0 ∧ s = [])) :
    (∀ res, call q s r = .ok res → trim (res.content.getD []) = [] →
        reformulateQuery call q s r = .ok (q, ⟨res.promptTokens, res.completionTokens⟩))
    ∧ (∀ e, call q s r = .error e → reformulateQuery call q s r = .error e) := by
  constructor
  · intro res hcall htrim
    unfold reformulateQuery
    rw [if_neg hctx, hcall]
    simp [htrim]
  · intro e hcall
    unfold reformulateQuery
    rw [if_neg hctx, hcall]

theorem reformulation_fallback_witness :
    (reformulateQuery (fun _ _ _ => .ok ⟨some ((" ").data), 3, 4⟩)
        (("q").data) (("s").data) [] = .ok (("q").data, ⟨3, 4⟩))
    ∧ (reformulateQuery (fun _ _ _ => .error (("down").data))
        (("q").data) (("s").data) [] = .error (("down").data)) :=
  ⟨(reformulation_fallback (fun _ _ _ => .ok ⟨some ((" ").data), 3, 4⟩)
      (("q").data) (("s").data) [] (by decide)).1 ⟨some ((" ").data), 3, 4⟩ rfl (by decide),
    (reformulation_fallback (fun _ _ _ => .error (("down").data))
      (("q").data) (("s").data) [] (by decide)).2 (("down").data) rfl⟩

/-! ## Sentinel round-trip lemmas (C9) -/

theorem wsOnly_append_gt (x : Str) : wsOnly (x ++ ['>']) = false := by
  simp [wsOnly, List.all_append, isWs]

/-- A line-terminator-free capture followed by the closing `-->` at the very
end of the string is captured exactly: every earlier candidate `-->` stop has
a non-whitespace (`>`-terminated) remainder, so the lazy scan passes it by. -/
theorem lazyCap_some :
    ∀ (p : Str), (∀ c ∈ p, isLineTerm c = false) → lazyCap (p ++ ARROW) = some p := by
  intro p
  induction p with
  | nil => intro _; rfl
  | cons c p ih =>
    intro hlt
    have hstep : ¬ (ARROW.isPrefixOf (c :: (p ++ ARROW)) = true
        ∧ wsOnly ((c :: (p ++ ARROW)).drop 3) = true) := by
      rintro ⟨-, hws⟩
      have hsplit : (c :: (p ++ ARROW)) = (c :: p ++ ['-', '-']) ++ ['>'] := by
        simp [ARROW]
      have hlen : 3 ≤ (c :: p ++ ['-', '-']).length := by simp
      rw [hsplit, List.drop_append_of_le_length hlen, wsOnly_append_gt] at hws
      exact absurd hws (by simp)
    rw [show (c :: p) ++ ARROW = c :: (p ++ ARROW) from rfl, lazyCap, if_neg hstep,
      if_neg (by simp [hlt c (List.mem_cons_self c p)]),
      ih (fun d hd => hlt d (List.mem_cons_of_mem c hd))]
    rfl

/-- If the string contains a newline and ends with `>`, the lazy capture
fails: no candidate stop before the newline has an all-whitespace remainder,
and the scan aborts at the newline (`.` does not match line terminators). -/
theorem lazyCap_none :
    ∀ (s : Str), '\n' ∈ s → (∃ z, s = z ++ ['>']) → lazyCap s = none := by
  intro s
  induction s with
  | nil => intro h _; simp at h
  | cons c cs ih =>
    intro hmem hend
    obtain ⟨z, hz⟩ := hend
    have hstep : ¬ (ARROW.isPrefixOf (c :: cs) = true
        ∧ wsOnly ((c :: cs).drop 3) = true) := by
      rintro ⟨hpre, hws⟩
      have h3 : ARROW.length = 3 := rfl
      by_cases hlen : 3 < (c :: cs).length
      · have hzlen : 3 ≤ z.length := by
          have hLen := congrArg List.length hz
          simp only [List.length_cons, List.length_append, List.length_nil] at hLen
          simp only [List.length_cons] at hlen
          omega
        rw [hz, List.drop_append_of_le_length hzlen, wsOnly_append_gt] at hws
        exact absurd hws (by simp)
      · have hpl : ARROW.length ≤ (c :: cs).length :=
          (List.isPrefixOf_iff_prefix.mp hpre).length_le
        rw [h3] at hpl
        have heq : (c :: cs) = ARROW := by
          have h1 := List.prefix_iff_eq_take.mp (List.isPrefixOf_iff_prefix.mp hpre)
          rw [List.take_of_length_le (by rw [h3]; omega)] at h1
          exact h1.symm
        rw [heq] at hmem
        simp [ARROW] at hmem
    rw [lazyCap, if_neg hstep]
    by_cases hcl : isLineTerm c = true
    · rw [if_pos hcl]
    · rw [if_neg hcl]
      have hcne : c ≠ '\n' := by
        intro h; subst h; exact hcl (by decide)
      have hmem' : '\n' ∈ cs := by
        rcases List.mem_cons.mp hmem with h | h
        · exact absurd h.symm hcne
        · exact h
      have hcs : ∃ z', cs = z' ++ ['>'] := by
        cases z with
        | nil =>
          simp at hz
          rw [hz.2] at hmem'
          simp at hmem'
        | cons a z' =>
          simp only [List.cons_append, List.cons.injEq] at hz
          exact ⟨z', hz.2⟩
      rw [ih hmem' hcs]
      rfl

theorem headMatch_self (marker x : Str) :
    headMatch marker (marker ++ x) = lazyCap x := by
  rw [headMatch, if_pos (List.isPrefixOf_iff_prefix.mpr (List.prefix_append marker x)),
    List.drop_left]

theorem findCap_start (marker : Str) (c : Char) (cs : Str) (cap : Str)
    (h : headMatch marker (c :: cs) = some cap) :
    findCap marker (c :: cs) = some ([], cap) := by
  rw [findCap, h]

theorem findCap_prepend (marker : Str) :
    ∀ (A T : Str),
      (∀ B, B ≠ [] → B <:+ A → headMatch marker (B ++ T) = none) →
      findCap marker (A ++ T) = (findCap marker T).map (fun pr => (A ++ pr.1, pr.2)) := by
  intro A
  induction A with
  | nil =>
    intro T _
    simp only [List.nil_append]
    cases findCap marker T with
    | none => rfl
    | some pr => simp
  | cons c A ih =>
    intro T hfail
    have hhead : headMatch marker ((c :: A) ++ T) = none :=
      hfail (c :: A) (by simp) (List.suffix_refl _)
    rw [show (c :: A) ++ T = c :: (A ++ T) from rfl, findCap]
    rw [show c :: (A ++ T) = (c :: A) ++ T from rfl, hhead]
    rw [ih T (fun B hB hBs => hfail B hB (hBs.trans (List.suffix_cons c A)))]
    cases findCap marker T with
    | none => rfl
    | some pr => rfl

theorem findCap_none (marker : Str) :
    ∀ (t : Str), (∀ B, B ≠ [] → B <:+ t → headMatch marker B = none) →
      findCap marker t = none := by
  intro t
  induction t with
  | nil => intro _; rfl
  | cons c cs ih =>
    intro hfail
    rw [findCap, hfail (c :: cs) (by simp) (List.suffix_refl _),
      ih (fun B hB hBs => hfail B hB (hBs.trans (List.suffix_cons c cs)))]

/-- Decompose a suffix of an append. -/
theorem suffix_append_cases {α : Type} {B Y : List α} :
    ∀ (X : List α), B <:+ X ++ Y →
      B <:+ Y ∨ ∃ B', B' <:+ X ∧ B' ≠ [] ∧ B = B' ++ Y := by
  intro X
  induction X with
  | nil => intro h; exact Or.inl (by simpa using h)
  | cons x X ih =>
    intro h
    rcases List.suffix_cons_iff.mp h with rfl | h'
    · exact Or.inr ⟨x :: X, List.suffix_refl _, by simp, by simp⟩
    · rcases ih h' with h'' | ⟨B', hB', hne, rfl⟩
      · exact Or.inl h''
      · exact Or.inr ⟨B', hB'.trans (List.suffix_cons x X), hne, rfl⟩

/-! ### Character-class facts about the sentinel payloads -/

theorem digitChar_eq_star (m : Nat) (h : 16 ≤ m) : Nat.digitChar m = '*' := by
  unfold Nat.digitChar
  rw [if_neg (show ¬ m = 0 by omega), if_neg (show ¬ m = 1 by omega), if_neg (show ¬ m = 2 by omega), if_neg (show ¬ m = 3 by omega), if_neg (show ¬ m = 4 by omega), if_neg (show ¬ m = 5 by omega), if_neg (show ¬ m = 6 by omega), if_neg (show ¬ m = 7 by omega), if_neg (show ¬ m = 8 by omega), if_neg (show ¬ m = 9 by omega), if_neg (show ¬ m = 10 by omega), if_neg (show ¬ m = 11 by omega), if_neg (show ¬ m = 12 by omega), if_neg (show ¬ m = 13 by omega), if_neg (show ¬ m = 14 by omega), if_neg (show ¬ m = 15 by omega)]

theorem digitChar_benign (m : Nat) :
    isLineTerm (Nat.digitChar m) = false ∧ Nat.digitChar m ≠ '<'
      ∧ Nat.digitChar m ≠ '\x7b' := by
  by_cases h : m < 16
  · interval_cases m <;> exact ⟨by decide, by decide, by decide⟩
  · rw [digitChar_eq_star m (by omega)]
    exact ⟨by decide, by decide, by decide⟩

theorem natDecimalFuel_mem (fuel : Nat) :
    ∀ (n : Nat) (ch : Char), ch ∈ natDecimalFuel fuel n → ∃ m, ch = Nat.digitChar m := by
  induction fuel with
  | zero =>
    intro n ch hch
    simp only [natDecimalFuel, List.mem_singleton] at hch
    exact ⟨n, hch⟩
  | succ f ih =>
    intro n ch hch
    rw [natDecimalFuel] at hch
    split_ifs at hch with h
    · simp only [List.mem_singleton] at hch
      exact ⟨n, hch⟩
    · rcases List.mem_append.mp hch with hm | hm
      · exact ih (n / 10) ch hm
      · simp only [List.mem_singleton] at hm
        exact ⟨n % 10, hm⟩

theorem natDecimal_benign (n : Nat) (ch : Char) (hch : ch ∈ natDecimal n) :
    isLineTerm ch = false ∧ ch ≠ '<' ∧ ch ≠ '\x7b' := by
  obtain ⟨m, rfl⟩ := natDecimalFuel_mem n n ch hch
  exact digitChar_benign m

theorem digitChar_isDigit (m : Nat) (h : m < 10) : (Nat.digitChar m).isDigit = true := by
  have : ∀ k, k < 10 → (Nat.digitChar k).isDigit = true := by decide
  exact this m h

theorem natDecimalFuel_isDigit (fuel : Nat) :
    ∀ (n : Nat), n ≤ fuel → ∀ ch ∈ natDecimalFuel fuel n, ch.isDigit = true := by
  induction fuel with
  | zero =>
    intro n hn ch hch
    have hn0 : n = 0 := Nat.le_zero.mp hn
    subst hn0
    simp only [natDecimalFuel, List.mem_singleton] at hch
    subst hch
    exact digitChar_isDigit 0 (by omega)
  | succ f ih =>
    intro n hn ch hch
    rw [natDecimalFuel] at hch
    split_ifs at hch with h
    · simp only [List.mem_singleton] at hch
      subst hch
      exact digitChar_isDigit n h
    · rcases List.mem_append.mp hch with hm | hm
      · have : n / 10 ≤ f := by omega
        exact ih (n / 10) this ch hm
      · simp only [List.mem_singleton] at hm
        subst hm
        exact digitChar_isDigit (n % 10) (Nat.mod_lt n (by omega))

theorem natDecimal_isDigit (n : Nat) : ∀ ch ∈ natDecimal n, ch.isDigit = true :=
  natDecimalFuel_isDigit n n (le_refl n)

theorem natDecimal_ne_nil (n : Nat) : natDecimal n ≠ [] := by
  rw [natDecimal_eq]
  split_ifs <;> simp

/-- The usage payload contains no line terminator, no `<`, and starts with
`\x7b`. -/
theorem usageJson_benign (p c t : Nat) :
    (∀ ch ∈ usageJson p c t, isLineTerm ch = false ∧ ch ≠ '<')
      ∧ (∃ r, usageJson p c t = '\x7b' :: r) := by
  constructor
  · intro ch hch
    rw [usageJson] at hch
    simp only [List.append_assoc, List.mem_append, List.mem_singleton] at hch
    rcases hch with h | h | h | h | h | h | h
    · revert h; revert ch; decide
    · exact ⟨(natDecimal_benign p ch h).1, (natDecimal_benign p ch h).2.1⟩
    · revert h; revert ch; decide
    · exact ⟨(natDecimal_benign c ch h).1, (natDecimal_benign c ch h).2.1⟩
    · revert h; revert ch; decide
    · exact ⟨(natDecimal_benign t ch h).1, (natDecimal_benign t ch h).2.1⟩
    · subst h; exact ⟨by decide, by decide⟩
  · refine ⟨('\"' :: 'p' :: 'r' :: 'o' :: 'm' :: 'p' :: 't' :: '\"' :: ':' :: []) ++
      natDecimal p ++ usageKeyMid ++ natDecimal c ++ usageKeyTot ++
      natDecimal t ++ ['\x7d'], ?_⟩
    rw [usageJson]
    rfl

/-- Escaped text contains no line terminator, provided the source text
contains neither U+2028 nor U+2029 (newline and carriage return are escaped,
but `JSON.stringify` passes the Unicode line/paragraph separators through
unescaped). -/
theorem escapeJson_lineTerm (s : Str)
    (hs : ∀ c ∈ s, c ≠ '\u2028' ∧ c ≠ '\u2029') :
    ∀ ch ∈ escapeJson s, isLineTerm ch = false := by
  intro ch hch
  rw [escapeJson] at hch
  rw [List.mem_flatten] at hch
  obtain ⟨l, hl, hchl⟩ := hch
  rw [List.mem_map] at hl
  obtain ⟨c, hc, rfl⟩ := hl
  rw [escapeJsonChar] at hchl
  split_ifs at hchl with h1 h2 h3 h4 h5 h6 h7 h8
  · revert hchl; revert ch; decide
  · revert hchl; revert ch; decide
  · revert hchl; revert ch; decide
  · revert hchl; revert ch; decide
  · revert hchl; revert ch; decide
  · revert hchl; revert ch; decide
  · revert hchl; revert ch; decide
  · simp only [List.mem_cons, List.not_mem_nil, or_false] at hchl
    rcases hchl with rfl | rfl | rfl | rfl | rfl | rfl
    · decide
    · decide
    · decide
    · decide
    · exact (digitChar_benign _).1
    · exact (digitChar_benign _).1
  · simp only [List.mem_singleton] at hchl
    subst hchl
    have hne := hs ch hc
    simp only [isLineTerm]
    have hn : ch ≠ '\n' := h5
    have hr : ch ≠ '\r' := h6
    simp only [Bool.or_eq_false_iff, beq_eq_false_iff_ne, ne_eq]
    exact ⟨⟨⟨hn, hr⟩, hne.1⟩, hne.2⟩

/-- The summary payload contains no line terminator, provided the summary
text contains neither U+2028 nor U+2029. -/
theorem summaryJson_lineTerm (text : Str) (m : Nat)
    (hs : ∀ c ∈ text, c ≠ '\u2028' ∧ c ≠ '\u2029') :
    ∀ ch ∈ summaryJson text m, isLineTerm ch = false := by
  intro ch hch
  rw [summaryJson] at hch
  simp only [List.append_assoc, List.mem_append, List.mem_singleton] at hch
  rcases hch with h | h | h | h | h
  · revert h; revert ch; decide
  · exact escapeJson_lineTerm text hs ch h
  · revert h; revert ch; decide
  · exact (natDecimal_benign m ch h).1
  · subst h; decide

theorem findCap_start' (marker : Str) (s : Str) (cap : Str) (hs : s ≠ [])
    (h : headMatch marker s = some cap) : findCap marker s = some ([], cap) := by
  cases s with
  | nil => exact absurd rfl hs
  | cons c cs => rw [findCap, h]

/-- No match of the SUMMARY regex can start inside text that is followed by
`"\n\n" ++ Z ++ ">"`: a capture reaching the end would have to cross the
newlines, and a short match would need the marker to contain a newline. -/
theorem headMatch_summary_before_nl (B Z : Str) :
    headMatch SUMMARY_MARKER (B ++ ('\n' :: '\n' :: (Z ++ ['>']))) = none := by
  rw [headMatch]
  by_cases hpre : SUMMARY_MARKER.isPrefixOf (B ++ ('\n' :: '\n' :: (Z ++ ['>']))) = true
  · rw [if_pos hpre]
    by_cases hlen : 12 ≤ B.length
    · rw [show SUMMARY_MARKER.length = 12 from rfl,
        List.drop_append_of_le_length hlen]
      apply lazyCap_none
      · exact List.mem_append.mpr (Or.inr (by simp))
      · exact ⟨B.drop 12 ++ ('\n' :: '\n' :: Z), by simp⟩
    · exfalso
      have hblt : B.length < 12 := Nat.lt_of_not_le hlen
      have htake := List.prefix_iff_eq_take.mp (List.isPrefixOf_iff_prefix.mp hpre)
      rw [show SUMMARY_MARKER.length = 12 from rfl,
        List.take_append_eq_append_take,
        List.take_of_length_le (le_of_lt hblt)] at htake
      have hdropB : SUMMARY_MARKER.drop B.length
          = ('\n' :: '\n' :: (Z ++ ['>'])).take (12 - B.length) := by
        rw [htake, List.drop_left]
      obtain ⟨k', hk'⟩ : ∃ k', 12 - B.length = k' + 1 := ⟨12 - B.length - 1, by omega⟩
      have hhead : (('\n' :: '\n' :: (Z ++ ['>'])).take (12 - B.length)).head?
          = some '\n' := by
        rw [hk']
        rfl
      have hno : ∀ j, j < 12 → (SUMMARY_MARKER.drop j).head? ≠ some '\n' := by decide
      exact hno B.length (by omega) (hdropB ▸ hhead)
  · rw [if_neg hpre]

/-- No match of the SUMMARY regex can start inside the USAGE marker: the two
markers do not overlap, and the character after the marker region is `\x7b`,
which never occurs in the SUMMARY marker. -/
theorem headMatch_summary_in_umarker (B R : Str) (hsuf : B <:+ USAGE_MARKER)
    (hR : ∃ r, R = '\x7b' :: r) :
    headMatch SUMMARY_MARKER (B ++ R) = none := by
  rw [headMatch]
  by_cases hpre : SUMMARY_MARKER.isPrefixOf (B ++ R) = true
  · exfalso
    have hble : B.length ≤ 12 := by
      have h := hsuf.sublist.length_le
      simpa [USAGE_MARKER] using h
    have hBd := List.suffix_iff_eq_drop.mp hsuf
    rw [show USAGE_MARKER.length = 12 from rfl] at hBd
    have htake := List.prefix_iff_eq_take.mp (List.isPrefixOf_iff_prefix.mp hpre)
    rw [show SUMMARY_MARKER.length = 12 from rfl] at htake
    by_cases hlen : 12 ≤ B.length
    · rw [List.take_append_of_le_length hlen] at htake
      have hm : 12 - B.length = 0 := by omega
      have hdec : ¬ SUMMARY_MARKER = (USAGE_MARKER.drop 0).take 12 := by decide
      exact hdec (by rw [htake, hBd, hm])
    · have hblt : B.length < 12 := Nat.lt_of_not_le hlen
      rw [List.take_append_eq_append_take,
        List.take_of_length_le (le_of_lt hblt)] at htake
      have hdropB : SUMMARY_MARKER.drop B.length = R.take (12 - B.length) := by
        rw [htake, List.drop_left]
      obtain ⟨r, rfl⟩ := hR
      obtain ⟨k', hk'⟩ : ∃ k', 12 - B.length = k' + 1 := ⟨12 - B.length - 1, by omega⟩
      have hhead : (('\x7b' :: r).take (12 - B.length)).head? = some '\x7b' := by
        rw [hk']
        rfl
      have hno : ∀ j, j < 12 → (SUMMARY_MARKER.drop j).head? ≠ some '\x7b' := by decide
      exact hno B.length (by omega) (hdropB ▸ hhead)
  · rw [if_neg hpre]

/-- No match of the SUMMARY regex can start inside a region whose characters
do not include `<`. -/
theorem headMatch_summary_no_lt (B Z L : Str) (hsuf : B <:+ L) (hB : B ≠ [])
    (hL : ∀ ch ∈ L, ch ≠ '<') :
    headMatch SUMMARY_MARKER (B ++ Z) = none := by
  rw [headMatch]
  by_cases hpre : SUMMARY_MARKER.isPrefixOf (B ++ Z) = true
  · exfalso
    cases B with
    | nil => exact hB rfl
    | cons b B' =>
      have hp := List.isPrefixOf_iff_prefix.mp hpre
      rw [show SUMMARY_MARKER = '<' :: ('!' :: '-' :: '-' :: 'S' :: 'U' :: 'M' :: 'M' ::
        'A' :: 'R' :: 'Y' :: ':' :: []) from rfl] at hp
      rw [show (b :: B') ++ Z = b :: (B' ++ Z) from rfl] at hp
      have hb := (List.cons_prefix_cons.mp hp).1
      exact hL b (hsuf.subset (List.mem_cons_self b B')) hb.symm
  · rw [if_neg hpre]

/-- Assembled failure condition for the SUMMARY regex over every non-empty
suffix of `answer ++ USAGE_MARKER ++ ju ++ ARROW`, with `E` the tail after
that region (either the summary sentinel or nothing). -/
theorem hfail_summary (answer ju E : Str)
    (hju1 : ∀ ch ∈ ju, ch ≠ '<') (hju2 : ∃ r, ju = '\x7b' :: r)
    (hE : ∃ w, ju ++ (ARROW ++ E) = '\x7b' :: (w ++ ['>'])) :
    ∀ B, B ≠ [] → B <:+ (answer ++ (USAGE_MARKER ++ (ju ++ ARROW))) →
      headMatch SUMMARY_MARKER (B ++ E) = none := by
  intro B hB hsuf
  rcases suffix_append_cases answer hsuf with hsufU | ⟨B', _, _, rfl⟩
  · rcases suffix_append_cases USAGE_MARKER hsufU with hsufJA | ⟨B'', hB'', _, rfl⟩
    · refine headMatch_summary_no_lt B E (ju ++ ARROW) hsufJA hB ?_
      intro ch hch
      have hARROW : ∀ c, c ∈ ARROW → c ≠ '<' := by decide
      rcases List.mem_append.mp hch with h | h
      · exact hju1 ch h
      · exact hARROW ch h
    · rw [show (B'' ++ (ju ++ ARROW)) ++ E = B'' ++ (ju ++ (ARROW ++ E)) by simp]
      obtain ⟨w, hw⟩ := hE
      rw [hw]
      exact headMatch_summary_in_umarker B'' ('\x7b' :: (w ++ ['>'])) hB'' ⟨w ++ ['>'], rfl⟩
  · obtain ⟨w, hw⟩ := hE
    rw [show (B' ++ (USAGE_MARKER ++ (ju ++ ARROW))) ++ E
        = B' ++ (USAGE_MARKER ++ (ju ++ (ARROW ++ E))) by simp, hw]
    rw [show USAGE_MARKER ++ ('\x7b' :: (w ++ ['>']))
        = '\n' :: '\n' :: (('<' :: '!' :: '-' :: '-' :: 'U' :: 'S' :: 'A' :: 'G' :: 'E' ::
          ':' :: '\x7b' :: w) ++ ['>']) by simp [USAGE_MARKER]]
    exact headMatch_summary_before_nl B' _

/-- No match of the USAGE regex can start strictly inside the answer text:
a long candidate's capture would have to cross the marker's two newlines,
and a short candidate would need the USAGE marker to overlap itself. -/
theorem headMatch_usage_in_answer (B ju : Str) (hB : B ≠ []) :
    headMatch USAGE_MARKER (B ++ (USAGE_MARKER ++ (ju ++ ARROW))) = none := by
  rw [headMatch]
  by_cases hpre : USAGE_MARKER.isPrefixOf (B ++ (USAGE_MARKER ++ (ju ++ ARROW))) = true
  · rw [if_pos hpre]
    by_cases hlen : 12 ≤ B.length
    · rw [show USAGE_MARKER.length = 12 from rfl,
        List.drop_append_of_le_length hlen]
      apply lazyCap_none
      · exact List.mem_append.mpr (Or.inr (List.mem_append.mpr (Or.inl (by decide))))
      · exact ⟨B.drop 12 ++ (USAGE_MARKER ++ (ju ++ ['-', '-'])), by simp [ARROW]⟩
    · exfalso
      have hblt : B.length < 12 := Nat.lt_of_not_le hlen
      have htake := List.prefix_iff_eq_take.mp (List.isPrefixOf_iff_prefix.mp hpre)
      rw [show USAGE_MARKER.length = 12 from rfl,
        List.take_append_eq_append_take,
        List.take_of_length_le (le_of_lt hblt),
        List.take_append_of_le_length (show 12 - B.length ≤ USAGE_MARKER.length
          by rw [show USAGE_MARKER.length = 12 from rfl]; omega)] at htake
      have hdropB : USAGE_MARKER.drop B.length = USAGE_MARKER.take (12 - B.length) := by
        conv_lhs => rw [htake]
        rw [List.drop_left]
      have hBpos : 0 < B.length := List.length_pos.mpr hB
      have hdec : ∀ j, j < 12 → 0 < j →
          ¬ USAGE_MARKER.drop j = USAGE_MARKER.take (12 - j) := by decide
      exact hdec B.length (by omega) hBpos hdropB
  · rw [if_neg hpre]

/-- Stage 2 of the extractor: the USAGE regex matches exactly at the usage
sentinel, cutting the answer text off cleanly. -/
theorem findCap_usage (answer ju : Str) (hju : ∀ c ∈ ju, isLineTerm c = false) :
    findCap USAGE_MARKER (answer ++ (USAGE_MARKER ++ (ju ++ ARROW)))
      = some (answer, ju) := by
  rw [findCap_prepend USAGE_MARKER answer (USAGE_MARKER ++ (ju ++ ARROW))
    (fun B hB _ => headMatch_usage_in_answer B ju hB)]
  rw [findCap_start' USAGE_MARKER (USAGE_MARKER ++ (ju ++ ARROW)) ju
    (by simp [USAGE_MARKER]) (by rw [headMatch_self]; exact lazyCap_some ju hju)]
  simp

/-- Stage 1 of the extractor when the summary sentinel is present: the
SUMMARY regex matches exactly at the summary sentinel. -/
theorem findCap_summary_present (answer ju js : Str)
    (hju1 : ∀ ch ∈ ju, ch ≠ '<') (hju2 : ∃ r, ju = '\x7b' :: r)
    (hjs : ∀ c ∈ js, isLineTerm c = false) :
    findCap SUMMARY_MARKER
      ((answer ++ (USAGE_MARKER ++ (ju ++ ARROW))) ++ (SUMMARY_MARKER ++ (js ++ ARROW)))
      = some (answer ++ (USAGE_MARKER ++ (ju ++ ARROW)), js) := by
  obtain ⟨r, hr⟩ := hju2
  rw [findCap_prepend SUMMARY_MARKER (answer ++ (USAGE_MARKER ++ (ju ++ ARROW)))
    (SUMMARY_MARKER ++ (js ++ ARROW))
    (hfail_summary answer ju (SUMMARY_MARKER ++ (js ++ ARROW)) hju1 ⟨r, hr⟩
      ⟨r ++ (ARROW ++ (SUMMARY_MARKER ++ (js ++ ['-', '-']))), by
        rw [hr]; simp [ARROW]⟩)]
  rw [findCap_start' SUMMARY_MARKER (SUMMARY_MARKER ++ (js ++ ARROW)) js
    (by simp [SUMMARY_MARKER]) (by rw [headMatch_self]; exact lazyCap_some js hjs)]
  simp

/-- Stage 1 of the extractor when the summary sentinel is absent: the
SUMMARY regex finds no match anywhere in the stream. -/
theorem findCap_summary_absent (answer ju : Str)
    (hju1 : ∀ ch ∈ ju, ch ≠ '<') (hju2 : ∃ r, ju = '\x7b' :: r) :
    findCap SUMMARY_MARKER (answer ++ (USAGE_MARKER ++ (ju ++ ARROW))) = none := by
  obtain ⟨r, hr⟩ := hju2
  refine findCap_none SUMMARY_MARKER _ ?_
  intro B hB hBs
  have h := hfail_summary answer ju [] hju1 ⟨r, hr⟩
    ⟨r ++ ['-', '-'], by rw [hr]; simp [ARROW]⟩ B hB hBs
  rwa [List.append_nil] at h

/-! ### Decoding the payloads -/

theorem expectStr_append (pre s : Str) : expectStr pre (pre ++ s) = some s := by
  rw [expectStr, if_pos (List.isPrefixOf_iff_prefix.mpr (List.prefix_append pre s)),
    List.drop_left]

theorem parseDigits_append :
    ∀ (xs : Str) (acc : Nat) (rest : Str), (∀ c ∈ xs, c.isDigit = true) →
      (∀ d, rest.head? = some d → d.isDigit = false) →
      parseDigits (xs ++ rest) acc
        = (xs.foldl (fun a c => a * 10 + (c.toNat - 48)) acc, rest) := by
  intro xs
  induction xs with
  | nil =>
    intro acc rest _ hrest
    cases rest with
    | nil => rfl
    | cons d r =>
      rw [List.nil_append, parseDigits, if_neg (by simp [hrest d rfl])]
      rfl
  | cons c xs ih =>
    intro acc rest hxs hrest
    rw [List.cons_append, parseDigits, if_pos (hxs c (List.mem_cons_self c xs)),
      ih _ rest (fun d hd => hxs d (List.mem_cons_of_mem c hd)) hrest]
    rfl

theorem parseNat_natDecimal (n : Nat) (rest : Str)
    (hrest : ∀ d, rest.head? = some d → d.isDigit = false) :
    parseNat (natDecimal n ++ rest) = some (n, rest) := by
  obtain ⟨c, cs, hcc⟩ : ∃ c cs, natDecimal n = c :: cs := by
    cases h : natDecimal n with
    | nil => exact absurd h (natDecimal_ne_nil n)
    | cons c cs => exact ⟨c, cs, rfl⟩
  have hdig : ∀ ch ∈ natDecimal n, ch.isDigit = true := natDecimal_isDigit n
  have hfold : (natDecimal n).foldl (fun a ch => a * 10 + (ch.toNat - 48)) 0 = n :=
    digitsVal_natDecimal n
  rw [hcc] at hdig hfold ⊢
  rw [List.cons_append, parseNat, if_pos (hdig c (List.mem_cons_self c cs)),
    show c :: (cs ++ rest) = (c :: cs) ++ rest from rfl,
    parseDigits_append (c :: cs) 0 rest hdig hrest, hfold]

theorem hexVal_digitChar (v : Nat) (h : v < 16) : hexVal (Nat.digitChar v) = some v := by
  have hall : ∀ k, k < 16 → hexVal (Nat.digitChar k) = some k := by decide
  exact hall v h

theorem unescapeJson_quote (cs : Str) : unescapeJson ('\"' :: cs) = some ([], cs) := by
  rw [unescapeJson.eq_def]
  rfl

theorem unescapeJson_esc_quote (X : Str) :
    unescapeJson ('\\' :: '\"' :: X)
      = (unescapeJson X).map (fun pr => ('\"' :: pr.1, pr.2)) := by
  rw [unescapeJson.eq_def]
  rfl

theorem unescapeJson_esc_bs (X : Str) :
    unescapeJson ('\\' :: '\\' :: X)
      = (unescapeJson X).map (fun pr => ('\\' :: pr.1, pr.2)) := by
  rw [unescapeJson.eq_def]
  rfl

theorem unescapeJson_esc_b (X : Str) :
    unescapeJson ('\\' :: 'b' :: X)
      = (unescapeJson X).map (fun pr => ('\x08' :: pr.1, pr.2)) := by
  rw [unescapeJson.eq_def]
  rfl

theorem unescapeJson_esc_f (X : Str) :
    unescapeJson ('\\' :: 'f' :: X)
      = (unescapeJson X).map (fun pr => ('\x0c' :: pr.1, pr.2)) := by
  rw [unescapeJson.eq_def]
  rfl

theorem unescapeJson_esc_n (X : Str) :
    unescapeJson ('\\' :: 'n' :: X)
      = (unescapeJson X).map (fun pr => ('\n' :: pr.1, pr.2)) := by
  rw [unescapeJson.eq_def]
  rfl

theorem unescapeJson_esc_r (X : Str) :
    unescapeJson ('\\' :: 'r' :: X)
      = (unescapeJson X).map (fun pr => ('\r' :: pr.1, pr.2)) := by
  rw [unescapeJson.eq_def]
  rfl

theorem unescapeJson_esc_t (X : Str) :
    unescapeJson ('\\' :: 't' :: X)
      = (unescapeJson X).map (fun pr => ('\t' :: pr.1, pr.2)) := by
  rw [unescapeJson.eq_def]
  rfl

theorem unescapeJson_u00 (c : Char) (hc : c.toNat < 0x20) (X : Str) :
    unescapeJson ('\\' :: 'u' :: '0' :: '0' ::
        Nat.digitChar (c.toNat / 16) :: Nat.digitChar (c.toNat % 16) :: X)
      = (unescapeJson X).map (fun pr => (c :: pr.1, pr.2)) := by
  have h1 : hexVal (Nat.digitChar (c.toNat / 16)) = some (c.toNat / 16) :=
    hexVal_digitChar _ (by omega)
  have h2 : hexVal (Nat.digitChar (c.toNat % 16)) = some (c.toNat % 16) :=
    hexVal_digitChar _ (by omega)
  have hstep : unescapeJson ('\\' :: 'u' :: '0' :: '0' ::
      Nat.digitChar (c.toNat / 16) :: Nat.digitChar (c.toNat % 16) :: X)
      = match hexVal '0', hexVal '0', hexVal (Nat.digitChar (c.toNat / 16)),
          hexVal (Nat.digitChar (c.toNat % 16)) with
        | some v1, some v2, some v3, some v4 =>
          (unescapeJson X).map
            (fun pr => (Char.ofNat (4096 * v1 + 256 * v2 + 16 * v3 + v4) :: pr.1, pr.2))
        | _, _, _, _ => none := by
    rw [unescapeJson.eq_def]
    rfl
  rw [hstep, h1, h2]
  have harith : 4096 * 0 + 256 * 0 + 16 * (c.toNat / 16) + c.toNat % 16 = c.toNat := by
    omega
  show (unescapeJson X).map
      (fun pr => (Char.ofNat (4096 * 0 + 256 * 0 + 16 * (c.toNat / 16) + c.toNat % 16)
        :: pr.1, pr.2)) = _
  simp only [harith, Char.ofNat_toNat]

theorem unescapeJson_raw (c : Char) (hq : ¬ c = '\"') (hb : ¬ c = '\\')
    (hctl : ¬ c.toNat < 0x20) (X : Str) :
    unescapeJson (c :: X) = (unescapeJson X).map (fun pr => (c :: pr.1, pr.2)) := by
  rw [unescapeJson.eq_def]
  simp only [if_neg hq, if_neg hb, if_neg hctl]

/-- `JSON.parse` inverts `JSON.stringify` on string bodies: unescaping the
escaped text followed by the closing quote returns the original text and the
remainder after the quote. -/
theorem unescapeJson_escapeJson :
    ∀ (s rest : Str), unescapeJson (escapeJson s ++ ('\"' :: rest)) = some (s, rest) := by
  intro s
  induction s with
  | nil =>
    intro rest
    rw [show escapeJson [] = [] from rfl, List.nil_append, unescapeJson_quote]
  | cons c s ih =>
    intro rest
    have hesc : escapeJson (c :: s) = escapeJsonChar c ++ escapeJson s := by
      simp [escapeJson]
    rw [hesc, List.append_assoc, escapeJsonChar]
    split_ifs with h1 h2 h3 h4 h5 h6 h7 h8
    · subst h1
      rw [show (['\\', '\"'] : Str) ++ (escapeJson s ++ ('\"' :: rest))
          = '\\' :: '\"' :: (escapeJson s ++ ('\"' :: rest)) from rfl,
        unescapeJson_esc_quote, ih]
      rfl
    · subst h2
      rw [show (['\\', '\\'] : Str) ++ (escapeJson s ++ ('\"' :: rest))
          = '\\' :: '\\' :: (escapeJson s ++ ('\"' :: rest)) from rfl,
        unescapeJson_esc_bs, ih]
      rfl
    · subst h3
      rw [show (['\\', 'b'] : Str) ++ (escapeJson s ++ ('\"' :: rest))
          = '\\' :: 'b' :: (escapeJson s ++ ('\"' :: rest)) from rfl,
        unescapeJson_esc_b, ih]
      rfl
    · subst h4
      rw [show (['\\', 'f'] : Str) ++ (escapeJson s ++ ('\"' :: rest))
          = '\\' :: 'f' :: (escapeJson s ++ ('\"' :: rest)) from rfl,
        unescapeJson_esc_f, ih]
      rfl
    · subst h5
      rw [show (['\\', 'n'] : Str) ++ (escapeJson s ++ ('\"' :: rest))
          = '\\' :: 'n' :: (escapeJson s ++ ('\"' :: rest)) from rfl,
        unescapeJson_esc_n, ih]
      rfl
    · subst h6
      rw [show (['\\', 'r'] : Str) ++ (escapeJson s ++ ('\"' :: rest))
          = '\\' :: 'r' :: (escapeJson s ++ ('\"' :: rest)) from rfl,
        unescapeJson_esc_r, ih]
      rfl
    · subst h7
      rw [show (['\\', 't'] : Str) ++ (escapeJson s ++ ('\"' :: rest))
          = '\\' :: 't' :: (escapeJson s ++ ('\"' :: rest)) from rfl,
        unescapeJson_esc_t, ih]
      rfl
    · rw [show (['\\', 'u', '0', '0', Nat.digitChar (c.toNat / 16),
            Nat.digitChar (c.toNat % 16)] : Str) ++ (escapeJson s ++ ('\"' :: rest))
          = '\\' :: 'u' :: '0' :: '0' :: Nat.digitChar (c.toNat / 16) ::
            Nat.digitChar (c.toNat % 16) :: (escapeJson s ++ ('\"' :: rest)) from rfl,
        unescapeJson_u00 c h8, ih]
      rfl
    · rw [show ([c] : Str) ++ (escapeJson s ++ ('\"' :: rest))
          = c :: (escapeJson s ++ ('\"' :: rest)) from rfl,
        unescapeJson_raw c h1 h2 h8, ih]
      rfl

theorem head_not_digit_cons (x : Char) (xs : Str) (hx : x.isDigit = false) :
    ∀ d, (x :: xs : Str).head? = some d → d.isDigit = false := by
  intro d hd
  simp only [List.head?_cons, Option.some.injEq] at hd
  rw [← hd]
  exact hx

/-- Decoding the usage payload recovers the encoded counts. -/
theorem decodeUsage_usageJson (p c t : Nat) :
    decodeUsage (usageJson p c t) = some ⟨p, c, t⟩ := by
  have hshape : usageJson p c t
      = usageKeyPre ++ (natDecimal p ++ (usageKeyMid ++ (natDecimal c ++
          (usageKeyTot ++ (natDecimal t ++ ['\x7d']))))) := by
    simp [usageJson]
  rw [hshape]
  unfold decodeUsage
  rw [expectStr_append]
  simp only [Option.pure_def, Option.bind_eq_bind, Option.some_bind]
  rw [parseNat_natDecimal p _ (by intro d hd; exact head_not_digit_cons ',' _ (by decide) d hd)]
  simp only [Option.some_bind]
  rw [expectStr_append]
  simp only [Option.some_bind]
  rw [parseNat_natDecimal c _ (by intro d hd; exact head_not_digit_cons ',' _ (by decide) d hd)]
  simp only [Option.some_bind]
  rw [expectStr_append]
  simp only [Option.some_bind]
  rw [parseNat_natDecimal t _ (by intro d hd; exact head_not_digit_cons '\x7d' _ (by decide) d hd)]
  simp only [Option.some_bind]
  rw [show expectStr ['\x7d'] ['\x7d'] = some [] from rfl]
  simp only [Option.some_bind]
  rfl

/-- Decoding the summary payload recovers the encoded text and count. -/
theorem decodeSummary_summaryJson (text : Str) (m : Nat) :
    decodeSummary (summaryJson text m) = some (text, m) := by
  have hshape : summaryJson text m
      = summaryKeyPre ++ (escapeJson text ++ ('\"' :: (summaryKeyMid2 ++
          (natDecimal m ++ ['\x7d'])))) := by
    rw [summaryJson, show summaryKeyMid = '\"' :: summaryKeyMid2 from rfl]
    simp
  rw [hshape]
  unfold decodeSummary
  rw [expectStr_append]
  simp only [Option.pure_def, Option.bind_eq_bind, Option.some_bind]
  rw [unescapeJson_escapeJson]
  simp only [Option.some_bind]
  rw [expectStr_append]
  simp only [Option.some_bind]
  rw [parseNat_natDecimal m _ (by intro d hd; exact head_not_digit_cons '\x7d' _ (by decide) d hd)]
  simp only [Option.some_bind]
  rw [show expectStr ['\x7d'] ['\x7d'] = some [] from rfl]
  simp only [Option.some_bind]
  rfl

/-- C9: **Streaming/trailer round-trip.**  Encoding an answer, a usage value
and a memory-state (summary) value into the stream trailer convention and
decoding with the consumer's `extractSentinels` returns the original answer,
the original usage counts, and the original summary and message count —
PROVIDED the summary text contains neither U+2028 nor U+2029 (which
`JSON.stringify` passes through raw and which the extractor's regex `.`
refuses to cross).  A stream carrying no summary segment (the route omits it
exactly when the summary is empty) decodes to `none` — "no update" — rather
than an error.  This holds for every answer text, including answers that
themselves contain sentinel-like fragments. -/
theorem stream_trailer_roundtrip (answer summary : Str)
    (prompt completion msgCount : Nat)
    (hsum : ∀ c ∈ summary, c ≠ '\u2028' ∧ c ≠ '\u2029') :
    extractSentinels (encodeStream answer prompt completion summary msgCount)
      = (answer, some ⟨prompt, completion, prompt + completion⟩,
          if summary = [] then none else some (summary, msgCount)) := by
  by_cases hnil : summary = []
  · subst hnil
    have henc : encodeStream answer prompt completion [] msgCount
        = answer ++ (USAGE_MARKER ++
            (usageJson prompt completion (prompt + completion) ++ ARROW)) := by
      rw [encodeStream]
      simp
    have hs1 : findCap SUMMARY_MARKER
        (encodeStream answer prompt completion [] msgCount) = none := by
      rw [henc]
      exact findCap_summary_absent answer _
        (fun ch hch => ((usageJson_benign _ _ _).1 ch hch).2)
        (usageJson_benign _ _ _).2
    have hs2 : findCap USAGE_MARKER
        (encodeStream answer prompt completion [] msgCount)
        = some (answer, usageJson prompt completion (prompt + completion)) := by
      rw [henc]
      exact findCap_usage answer _
        (fun ch hch => ((usageJson_benign _ _ _).1 ch hch).1)
    simp only [extractSentinels, hs1, hs2, decodeUsage_usageJson]
    simp
  · have henc : encodeStream answer prompt completion summary msgCount
        = (answer ++ (USAGE_MARKER ++
            (usageJson prompt completion (prompt + completion) ++ ARROW)))
          ++ (SUMMARY_MARKER ++ (summaryJson summary msgCount ++ ARROW)) := by
      rw [encodeStream, if_pos hnil]
      simp
    have hs1 : findCap SUMMARY_MARKER
        (encodeStream answer prompt completion summary msgCount)
        = some (answer ++ (USAGE_MARKER ++
            (usageJson prompt completion (prompt + completion) ++ ARROW)),
          summaryJson summary msgCount) := by
      rw [henc]
      exact findCap_summary_present answer _ _
        (fun ch hch => ((usageJson_benign _ _ _).1 ch hch).2)
        (usageJson_benign _ _ _).2
        (summaryJson_lineTerm summary msgCount hsum)
    have hs2 : findCap USAGE_MARKER
        (answer ++ (USAGE_MARKER ++
          (usageJson prompt completion (prompt + completion) ++ ARROW)))
        = some (answer, usageJson prompt completion (prompt + completion)) :=
      findCap_usage answer _
        (fun ch hch => ((usageJson_benign _ _ _).1 ch hch).1)
    simp only [extractSentinels, hs1, hs2, decodeUsage_usageJson,
      decodeSummary_summaryJson]
    simp [hnil]

/-- C9 counterexample: with a non-empty summary consisting of the single
character U+2028 (LINE SEPARATOR), the encoded stream does NOT decode back to
the original values — `JSON.stringify` emits U+2028 raw, the extractor's
regex `.` cannot cross it, both sentinels are left unstripped in the
displayed text, and the decoded usage and summary are both `none`. -/
theorem stream_trailer_cex :
    (('\u2028' :: [] : Str) ≠ []
      ∧ extractSentinels (encodeStream ['A'] 1 2 ['\u2028'] 3)
          = (encodeStream ['A'] 1 2 ['\u2028'] 3, none, none))
    ∧ ¬ extractSentinels (encodeStream ['A'] 1 2 ['\u2028'] 3)
          = (['A'], some ⟨1, 2, 1 + 2⟩, some (['\u2028'], 3)) := by
  refine ⟨⟨by decide, by decide⟩, by decide⟩

/-- C9 witness: the round-trip theorem applied at a concrete stream with a
benign two-character summary. -/
theorem stream_trailer_roundtrip_witness :
    (∀ c ∈ (['h', 'i'] : Str), c ≠ '\u2028' ∧ c ≠ '\u2029')
    ∧ extractSentinels (encodeStream ['o', 'k'] 1 2 ['h', 'i'] 3)
        = (['o', 'k'], some ⟨1, 2, 1 + 2⟩,
            if (['h', 'i'] : Str) = [] then none else some (['h', 'i'], 3)) :=
  ⟨by decide, stream_trailer_roundtrip ['o', 'k'] ['h', 'i'] 1 2 3 (by decide)⟩

end DocAssist
